import Mathlib

/-!
Verification of the memory-mcp indexing/retrieval core against its
natural-language specification.

The TypeScript sources are shallowly embedded: pure functions become Lean
functions over `String` / `List` / `ℚ` / `Int`; the SQLite store becomes a
record of row lists and each SQL statement becomes the corresponding list
transformation; external capabilities (SHA-256 hashing, jieba segmentation,
JSON.parse, Math.log2, the embedding model) are taken as parameters.
JavaScript string semantics (the `\s` class, `trim`, `split("\n")`,
`Array.prototype.sort` stability, lazy regex matching) are reproduced
explicitly where the code relies on them.
-/

namespace MemoryMcp

/-! ## JavaScript string primitives -/

/-- Character class of the JavaScript regex `\s` (WhiteSpace ∪ LineTerminator):
this is the set used by `trim()`, `replace(/\s+/g, " ")` and `/^#{1,6}\s/`. -/
def jsWhitespace (c : Char) : Bool :=
  c = ' ' ∨ c = '\t' ∨ c = '\n' ∨ c = '\r' ∨ c = '\x0b' ∨ c = '\x0c' ∨
  c = '\u00a0' ∨ c = '\u1680' ∨ ('\u2000' ≤ c ∧ c ≤ '\u200a') ∨
  c = '\u2028' ∨ c = '\u2029' ∨ c = '\u202f' ∨ c = '\u205f' ∨
  c = '\u3000' ∨ c = '\ufeff'

/-- Characters matched by the JavaScript regex `.` (without the `s` flag):
everything except line terminators. -/
def jsDot (c : Char) : Bool :=
  ¬ (c = '\n' ∨ c = '\r' ∨ c = '\u2028' ∨ c = '\u2029')

/-- JavaScript `String.prototype.trim` on a character list. -/
def jsTrimList (cs : List Char) : List Char :=
  ((cs.dropWhile jsWhitespace).reverse.dropWhile jsWhitespace).reverse

/-- JavaScript `String.prototype.trim`. -/
def jsTrim (s : String) : String :=
  String.mk (jsTrimList s.toList)

/-- Drop trailing JavaScript whitespace (the effect of matching `\s*$`). -/
def jsTrimEndList (cs : List Char) : List Char :=
  (cs.reverse.dropWhile jsWhitespace).reverse

/-- JavaScript `String.prototype.toLowerCase`, restricted to the ASCII range
(the only characters the code compares after lowercasing). -/
def jsToLower (s : String) : String :=
  String.mk (s.toList.map Char.toLower)

/-- JavaScript `text.replace(/\s+/g, " ")` on a character list: every maximal
run of whitespace becomes a single space (the flag records whether the
previous character was whitespace). -/
def collapseWsAux : Bool → List Char → List Char
  | _, [] => []
  | prevWs, c :: rest =>
    if jsWhitespace c then
      if prevWs then collapseWsAux true rest
      else ' ' :: collapseWsAux true rest
    else c :: collapseWsAux false rest

/-- JavaScript `text.replace(/\s+/g, " ")`. -/
def collapseWsList (cs : List Char) : List Char := collapseWsAux false cs

/-- JavaScript `String.prototype.split("\n")` at the character level:
split at every separator, keeping empty pieces, `[] ↦ [[]]`. -/
def splitCh (sep : Char) : List Char → List (List Char)
  | [] => [[]]
  | c :: rest =>
    match splitCh sep rest with
    | [] => [[]]
    | g :: gs => if c = sep then [] :: g :: gs else (c :: g) :: gs

/-- Intercalate a separator character between character-list pieces. -/
def joinCh (sep : Char) : List (List Char) → List Char
  | [] => []
  | [p] => p
  | p :: q :: rest => p ++ sep :: joinCh sep (q :: rest)

/-- JavaScript `content.split("\n")`. -/
def jsSplitNl (s : String) : List String :=
  (splitCh '\n' s.toList).map String.mk

/-- JavaScript `lines.join("\n")`. -/
def jsJoinNl (parts : List String) : String :=
  String.mk (joinCh '\n' (parts.map String.toList))

theorem splitCh_cons (sep c : Char) (rest : List Char) :
    splitCh sep (c :: rest) =
      match splitCh sep rest with
      | [] => [[]]
      | g :: gs => if c = sep then [] :: g :: gs else (c :: g) :: gs := rfl

theorem splitCh_ne_nil (sep : Char) (cs : List Char) : splitCh sep cs ≠ [] := by
  induction cs with
  | nil => simp [splitCh]
  | cons c rest ih =>
    rw [splitCh_cons]
    rcases h : splitCh sep rest with _ | ⟨g, gs⟩
    · exact absurd h ih
    · by_cases hc : c = sep <;> simp [hc]

theorem joinCh_splitCh (sep : Char) (cs : List Char) :
    joinCh sep (splitCh sep cs) = cs := by
  induction cs with
  | nil => simp [splitCh, joinCh]
  | cons c rest ih =>
    simp only [splitCh]
    rcases h : splitCh sep rest with _ | ⟨g, gs⟩
    · exact absurd h (splitCh_ne_nil sep rest)
    · rw [h] at ih
      by_cases hc : c = sep
      · subst hc; simpa [joinCh] using ih
      · cases gs with
        | nil => simp_all [joinCh]
        | cons g' gs' => simp_all [joinCh]

theorem splitCh_no_sep (sep : Char) (cs : List Char) :
    ∀ p ∈ splitCh sep cs, sep ∉ p := by
  induction cs with
  | nil => simp [splitCh]
  | cons c rest ih =>
    intro p hp
    simp only [splitCh] at hp
    rcases h : splitCh sep rest with _ | ⟨g, gs⟩
    · exact absurd h (splitCh_ne_nil sep rest)
    · rw [h] at hp
      rw [h] at ih
      by_cases hc : c = sep
      · simp [hc] at hp
        rcases hp with hp | hp | hp
        · simp [hp]
        · exact ih p (by simp [hp])
        · exact ih p (by simp [hp])
      · simp [hc] at hp
        rcases hp with hp | hp
        · subst hp
          intro hmem
          rcases List.mem_cons.mp hmem with h' | h'
          · exact hc h'.symm
          · exact ih g (by simp) h'
        · exact ih p (by simp [hp])

theorem splitCh_singleton (sep : Char) (p : List Char) (hp : sep ∉ p) :
    splitCh sep p = [p] := by
  induction p with
  | nil => simp [splitCh]
  | cons c cs ih =>
    have hc : c ≠ sep := fun h => hp (by simp [h])
    have hcs : sep ∉ cs := fun h => hp (List.mem_cons_of_mem _ h)
    simp [splitCh, ih hcs, hc]

theorem splitCh_append (sep : Char) (p cs : List Char) (hp : sep ∉ p) :
    splitCh sep (p ++ sep :: cs) = p :: splitCh sep cs := by
  induction p with
  | nil =>
    simp only [List.nil_append, splitCh]
    rcases h : splitCh sep cs with _ | ⟨g, gs⟩
    · exact absurd h (splitCh_ne_nil sep cs)
    · simp
  | cons c q ih =>
    have hc : c ≠ sep := fun h => hp (by simp [h])
    have hq : sep ∉ q := fun h => hp (List.mem_cons_of_mem _ h)
    rw [List.cons_append, splitCh_cons, ih hq]
    simp [hc]

theorem splitCh_joinCh (sep : Char) (parts : List (List Char))
    (hne : parts ≠ []) (hsep : ∀ p ∈ parts, sep ∉ p) :
    splitCh sep (joinCh sep parts) = parts := by
  induction parts with
  | nil => simp at hne
  | cons p rest ih =>
    cases rest with
    | nil => exact splitCh_singleton sep p (hsep p (by simp))
    | cons q rest' =>
      have hjoin : joinCh sep (p :: q :: rest') = p ++ sep :: joinCh sep (q :: rest') := rfl
      rw [hjoin, splitCh_append sep p _ (hsep p (by simp)),
        ih (by simp) (fun x hx => hsep x (List.mem_cons_of_mem _ hx))]

/-! ## C8: search budget arithmetic (searchMemory, part_002 lines 79–84) -/

/-- Constant `METADATA_TOKENS` from the search module. -/
def METADATA_TOKENS : Int := 30

/-- Constant `CHARS_PER_TOKEN` from the search module. -/
def CHARS_PER_TOKEN : Int := 3

/-- Constant `DEFAULT_TOKEN_MAX` from the search module. -/
def DEFAULT_TOKEN_MAX : Int := 4096

/-- Constant `SNIPPET_MAX_CHARS` from the search module. -/
def SNIPPET_MAX_CHARS : Int := 700

/-- Default `maxResults`:
`Math.min(20, Math.max(1, Math.floor(tokenMax / (200 + METADATA_TOKENS))))`.
`Int.fdiv` is floor division, matching `Math.floor` of the real quotient. -/
def defaultMaxResults (tokenMax : Int) : Int :=
  min 20 (max 1 (Int.fdiv tokenMax (200 + METADATA_TOKENS)))

/-- Default `minScore` in `searchMemory`. -/
def defaultMinScore : ℚ := 0.01

/-- `snippetTokens = Math.max(50, Math.floor((tokenMax - METADATA_TOKENS * maxResults) / maxResults))`
(faithful for `maxResults ≥ 1`, which holds whenever `maxResults` is defaulted). -/
def snippetTokens (tokenMax maxResults : Int) : Int :=
  max 50 (Int.fdiv (tokenMax - METADATA_TOKENS * maxResults) maxResults)

/-- `snippetMaxChars = Math.min(SNIPPET_MAX_CHARS, snippetTokens * CHARS_PER_TOKEN)`. -/
def snippetMaxChars (tokenMax maxResults : Int) : Int :=
  min SNIPPET_MAX_CHARS (snippetTokens tokenMax maxResults * CHARS_PER_TOKEN)

/-- The claim's clamp: `clamp(lo, hi, x)` keeps `x` within `[lo, hi]`. -/
def clampSpec (lo hi x : Int) : Int := max lo (min hi x)

/-- C8. Search budget arithmetic: with `maxResults` unsupplied it defaults to
`clamp(1, 20, tokenMax / (200 + 30))`, `minScore` defaults to `0.01`,
`snippetTokens = max(50, (tokenMax − 30·maxResults)/maxResults)` and
`snippetMaxChars = min(700, snippetTokens·3)`; in particular `tokenMax = 100`
gives `maxResults = 1` and `snippetMaxChars = 210 ≤ 210`. -/
theorem c8_search_budget :
    (∀ tokenMax : Int,
        defaultMaxResults tokenMax = clampSpec 1 20 (Int.fdiv tokenMax (200 + 30)))
    ∧ defaultMinScore = 1 / 100
    ∧ (∀ tokenMax maxResults : Int,
        snippetMaxChars tokenMax maxResults =
          min 700 (max 50 (Int.fdiv (tokenMax - 30 * maxResults) maxResults) * 3))
    ∧ defaultMaxResults 100 = 1
    ∧ snippetMaxChars 100 (defaultMaxResults 100) = 210 := by
  refine ⟨fun tokenMax => ?_, by norm_num [defaultMinScore], fun t m => rfl, by decide, by decide⟩
  unfold defaultMaxResults clampSpec METADATA_TOKENS
  omega

/-! ## C10: conditional L2-normalization (src/embedding.ts lines 46–78)

The raw model output (`ctx.getEmbeddingFor(...).vector`) is external; it is
the `raw` argument below. `Math.sqrt` is real square root. -/

/-- Magnitude computed by `normalize`:
`Math.sqrt(vec.reduce((sum, v) => sum + v * v, 0))`. -/
noncomputable def magnitude (vec : List ℝ) : ℝ :=
  Real.sqrt (vec.foldl (fun sum v => sum + v * v) 0)

/-- `normalize` from src/embedding.ts: divide by the magnitude only when the
magnitude is at least `1e-10`, otherwise return the vector unchanged. -/
noncomputable def normalize (vec : List ℝ) : List ℝ :=
  if magnitude vec < 1e-10 then vec else vec.map (fun v => v / magnitude vec)

/-- `embedText`: the model's raw vector passed through `normalize`. -/
noncomputable def embedText (raw : List ℝ) : List ℝ := normalize raw

/-- `embedBatch`: each raw vector passed through `normalize`, in order. -/
noncomputable def embedBatch (raws : List (List ℝ)) : List (List ℝ) :=
  raws.map normalize

theorem foldl_sq_replicate_zero (n : ℕ) (a : ℝ) :
    (List.replicate n (0 : ℝ)).foldl (fun sum v => sum + v * v) a = a := by
  induction n generalizing a with
  | zero => rfl
  | succ n ih => simpa [List.replicate_succ] using ih a

theorem magnitude_replicate_zero (n : ℕ) :
    magnitude (List.replicate n (0 : ℝ)) = 0 := by
  simp [magnitude, foldl_sq_replicate_zero]

/-- C10. The embedder's L2-normalization is conditional: `embedText` and
`embedBatch` divide by the magnitude only when it is at least `1e-10`; a raw
vector of magnitude below `1e-10` (e.g. the zero vector) is returned
unchanged, so the output is not guaranteed to have unit L2 norm in that
degenerate case. -/
theorem c10_normalize_conditional :
    (∀ raw : List ℝ, magnitude raw < 1e-10 → embedText raw = raw)
    ∧ (∀ raw : List ℝ, ¬ magnitude raw < 1e-10 →
        embedText raw = raw.map (fun v => v / magnitude raw))
    ∧ (∀ raws : List (List ℝ), embedBatch raws = raws.map normalize)
    ∧ embedText (List.replicate 768 (0 : ℝ)) = List.replicate 768 0
    ∧ magnitude (embedText (List.replicate 768 (0 : ℝ))) ≠ 1 := by
  have hz : magnitude (List.replicate 768 (0 : ℝ)) < 1e-10 := by
    rw [magnitude_replicate_zero]; norm_num
  refine ⟨fun raw h => ?_, fun raw h => ?_, fun raws => rfl, ?_, ?_⟩
  · simp [embedText, normalize, h]
  · simp [embedText, normalize, h]
  · unfold embedText normalize
    rw [if_pos hz]
  · rw [show embedText (List.replicate 768 (0 : ℝ)) = List.replicate 768 0 by
      unfold embedText normalize; rw [if_pos hz]]
    rw [magnitude_replicate_zero]; norm_num

/-- Witness for C10 at the zero vector of length 3. -/
theorem c10_normalize_conditional_witness :
    embedText [(0 : ℝ), 0, 0] = [0, 0, 0] := by
  have h : magnitude [(0 : ℝ), 0, 0] < 1e-10 := by
    have : magnitude [(0 : ℝ), 0, 0] = magnitude (List.replicate 3 (0 : ℝ)) := by
      norm_num [List.replicate]
    rw [this, magnitude_replicate_zero]; norm_num
  simpa using c10_normalize_conditional.1 [(0 : ℝ), 0, 0] h

/-! ## C7: memory_get allow-list (src/server.ts lines 464–508)

The handler resolves the request path against the workspace and takes its
relative form `rel = path.relative(workspaceDir, absPath)` with `/`
separators; path resolution is external (Node `path`), so the model takes
`rel` as input. The handler tests `path.extname(absPath)`; for every path
whose relative form passes the allow-list, `absPath` ends with the basename
of `rel`, so the extension is computed from `rel` here. The file system is
the `file` argument (`none` = read throws). -/

/-- `MEMORY_EXTENSIONS` from src/internal.ts. -/
def MEMORY_EXTENSIONS : List String := [".md", ".txt", ".json", ".jsonl", ".yaml", ".yml"]

/-- Node `path.extname` (posix): extension of the basename, empty when the
basename has no dot, starts with its only dot, or is exactly `..`. -/
def jsExtname (p : String) : String :=
  let cs := (p.toList.reverse.dropWhile (· = '/')).reverse
  let base := (splitCh '/' cs).getLastD []
  let after := base.reverse.takeWhile (· ≠ '.')
  if after.length = base.length then ""
  else
    let di := base.length - after.length - 1
    if di = 0 ∨ base = ['.', '.'] then "" else String.mk (base.drop di)

/-- Result of the `memory_get` tool. -/
inductive GetResult where
  | ok (path text : String)
  | err (msg : String)
deriving DecidableEq, Repr

/-- JavaScript `String.prototype.startsWith` (kernel-reducible form). -/
def jsStartsWith (s pre : String) : Bool :=
  pre.toList.isPrefixOf s.toList

/-- The path allow-list test from the `memory_get` handler. -/
def memoryGetAllowedPath (rel : String) : Bool :=
  rel = "MEMORY.md" ∨ rel = "memory.md" ∨ rel = "MEMORY.txt" ∨ rel = "memory.txt" ∨
  jsStartsWith rel "memory/"

/-- The `memory_get` handler: allow-list check, then file read, then the
optional `from`/`lines` slice (`!from && !lines` is the JavaScript falsy
test, so `0` counts as absent). -/
def memory_get (rel : String) (file : Option String) (fromLn lns : Option Int) : GetResult :=
  if ¬ (memoryGetAllowedPath rel ∧ jsToLower (jsExtname rel) ∈ MEMORY_EXTENSIONS) then
    .err "path not allowed"
  else
    match file with
    | none => .err "file not found"
    | some content =>
      if fromLn.getD 0 = 0 ∧ lns.getD 0 = 0 then .ok rel content
      else
        let allLines := jsSplitNl content
        let start := max 1 (fromLn.getD 1)
        let count := max 1 (lns.getD allLines.length)
        .ok rel (jsJoinNl ((allLines.drop (start - 1).toNat).take count.toNat))

/-- The claim's acceptance predicate, stated from the specification text:
the relative form is one of the top-level memory names or begins with
`memory/`, and the lowercased extension is in the indexed set. -/
def memoryGetAllowedSpec (rel : String) : Prop :=
  (rel ∈ (["MEMORY.md", "memory.md", "MEMORY.txt", "memory.txt"] : List String)
      ∨ jsStartsWith rel "memory/" = true)
  ∧ jsToLower (jsExtname rel) ∈ MEMORY_EXTENSIONS

instance (rel : String) : Decidable (memoryGetAllowedSpec rel) := by
  unfold memoryGetAllowedSpec; infer_instance

/-- C7. `memory_get` accepts a request iff the resolved relative path is one
of the top-level memory names or begins with `memory/` and its lowercased
extension is indexed; otherwise it returns the `path not allowed` error and
reads no file (the result does not depend on the file contents). -/
theorem c7_memory_get_allowlist :
    (∀ rel file fromLn lns, ¬ memoryGetAllowedSpec rel →
        memory_get rel file fromLn lns = .err "path not allowed")
    ∧ (∀ rel file fromLn lns, memoryGetAllowedSpec rel →
        memory_get rel file fromLn lns ≠ .err "path not allowed") := by
  have hequiv : ∀ rel, (memoryGetAllowedPath rel ∧ jsToLower (jsExtname rel) ∈ MEMORY_EXTENSIONS)
      ↔ memoryGetAllowedSpec rel := by
    intro rel
    unfold memoryGetAllowedPath memoryGetAllowedSpec
    simp [List.mem_cons, or_assoc]
  constructor
  · intro rel file fromLn lns h
    unfold memory_get
    rw [if_pos (by rw [hequiv]; exact h)]
  · intro rel file fromLn lns h
    unfold memory_get
    rw [if_neg (by rw [hequiv]; exact not_not_intro h)]
    match file with
    | none => simp
    | some content =>
      dsimp only
      split <;> simp

/-- Witness for C7: a path outside the allow-list is rejected without reading
the file, and an allowed path is not rejected. -/
theorem c7_memory_get_allowlist_witness :
    memory_get "secrets.txt" (some "top secret") none none = .err "path not allowed"
    ∧ memory_get "memory/notes.md" (some "x") none none ≠ .err "path not allowed" :=
  ⟨c7_memory_get_allowlist.1 "secrets.txt" (some "top secret") none none (by decide),
   c7_memory_get_allowlist.2 "memory/notes.md" (some "x") none none (by decide)⟩

/-! ## Chunker (src/internal.ts lines 115–464)

`hashText` is SHA-256 (Node crypto), taken as the parameter `h` throughout;
`JSON.parse` is taken as the parameter `parse`, exposing exactly the
observations the code makes of the parsed value (failure, scalar root,
array root with its length, object root with its key list). -/

/-- A chunk as produced by the Chunker (`MemoryChunk` in src/internal.ts). -/
structure MemoryChunk where
  startLine : Nat
  endLine : Nat
  text : String
  hash : String
deriving DecidableEq, Repr

/-- `extOf` from src/internal.ts: substring from the last dot, lowercased;
empty when there is no dot. -/
def extOf (name : String) : String :=
  let cs := name.toList
  let after := cs.reverse.takeWhile (· ≠ '.')
  if after.length = cs.length then ""
  else jsToLower (String.mk (cs.drop (cs.length - after.length - 1)))

/-- The ATX-heading test `/^#{1,6}\s/.test(line)`. -/
def isHeading (line : String) : Bool :=
  let cs := line.toList
  let hashes := cs.takeWhile (· = '#')
  decide (1 ≤ hashes.length) && decide (hashes.length ≤ 6) &&
    match cs.drop hashes.length with
    | [] => false
    | c :: _ => jsWhitespace c

/-- Markdown chunking options (`tokens`, `overlap`). -/
structure MdOpts where
  tokens : Nat
  overlap : Nat
deriving DecidableEq, Repr

/-- State of the `chunkMarkdown` line walk: emitted chunks, the current
buffer of `(line, lineNo)` entries, and its character count. -/
structure MdState where
  chunks : List MemoryChunk
  current : List (String × Nat)
  currentChars : Nat
deriving DecidableEq, Repr

/-- The `flush` closure in `chunkMarkdown`: emit the current buffer as a
chunk spanning its first to last line number (no-op on an empty buffer). -/
def mdFlush (h : String → String) (chunks : List MemoryChunk)
    (current : List (String × Nat)) : List MemoryChunk :=
  match current with
  | [] => chunks
  | e :: rest =>
    let text := jsJoinNl ((e :: rest).map Prod.fst)
    chunks ++ [⟨e.2, ((e :: rest).getLast (by simp)).2, text, h text⟩]

/-- The backwards accumulation inside `carryOverlap`: walk the reversed
buffer, keep entries until the accumulated size reaches `ovChars`. -/
def carryKeep (ovChars : Nat) : List (String × Nat) → Nat → List (String × Nat)
  | [], _ => []
  | e :: rest, acc =>
    let acc' := acc + e.1.length + 1
    if ovChars ≤ acc' then [e] else e :: carryKeep ovChars rest acc'

/-- The `carryOverlap` closure: seed the next buffer with a tail-first suffix
of the flushed buffer reaching `ovChars`, and recompute its size. -/
def carryOverlap (ovChars : Nat) (current : List (String × Nat)) :
    List (String × Nat) × Nat :=
  if ovChars = 0 ∨ current = [] then ([], 0)
  else
    let kept := (carryKeep ovChars current.reverse 0).reverse
    (kept, kept.foldl (fun s e => s + e.1.length + 1) 0)

/-- One step of the `chunkMarkdown` line walk before the push: flush when a
heading arrives on a non-empty buffer, flush with overlap carry on overflow,
otherwise leave the state unchanged. -/
def mdStep (h : String → String) (maxChars ovChars : Nat) (line : String)
    (st : MdState) : MdState :=
  if isHeading line ∧ st.current ≠ [] then
    ⟨mdFlush h st.chunks st.current, [], 0⟩
  else if maxChars < st.currentChars + (line.length + 1) ∧ st.current ≠ [] then
    ⟨mdFlush h st.chunks st.current, (carryOverlap ovChars st.current).1,
      (carryOverlap ovChars st.current).2⟩
  else st

/-- The line walk of `chunkMarkdown`: take the step for the line, then
append the line to the buffer. -/
def mdLoop (h : String → String) (maxChars ovChars : Nat) :
    List String → Nat → MdState → MdState
  | [], _, st => st
  | line :: rest, lineNo, st =>
    let st' := mdStep h maxChars ovChars line st
    mdLoop h maxChars ovChars rest (lineNo + 1)
      ⟨st'.chunks, st'.current ++ [(line, lineNo)], st'.currentChars + (line.length + 1)⟩

/-- `chunkMarkdown` from src/internal.ts: sliding window with heading
breaks, `maxChars = max(32, tokens*4)`, `overlapChars = overlap*4`. -/
def chunkMarkdown (h : String → String) (content : String)
    (opts : MdOpts := ⟨512, 64⟩) : List MemoryChunk :=
  let lines := jsSplitNl content
  if lines = [] then []
  else
    let maxChars := max 32 (opts.tokens * 4)
    let ovChars := opts.overlap * 4
    let st := mdLoop h maxChars ovChars lines 1 ⟨[], [], 0⟩
    mdFlush h st.chunks st.current

/-- The line walk of `chunkJsonl` with its 0-based index. -/
def jsonlLoop (h : String → String) : List String → Nat → List MemoryChunk
  | [], _ => []
  | l :: rest, i =>
    let t := jsTrim l
    if t.length = 0 then jsonlLoop h rest (i + 1)
    else ⟨i + 1, i + 1, t, h t⟩ :: jsonlLoop h rest (i + 1)

/-- `chunkJsonl` from src/internal.ts: one chunk per non-empty trimmed line. -/
def chunkJsonl (h : String → String) (content : String) : List MemoryChunk :=
  jsonlLoop h (jsSplitNl content) 0

/-- `singleChunk` from src/internal.ts: the whole file as one chunk, or
nothing when it is blank. -/
def singleChunk (h : String → String) (content : String) (lines : List String) :
    List MemoryChunk :=
  if (jsTrim content).length = 0 then []
  else [⟨1, lines.length, content, h content⟩]

/-- The YAML document separator test `/^---\s*$/.test(line)`. -/
def isDocSep (line : String) : Bool :=
  match line.toList with
  | '-' :: '-' :: '-' :: rest => rest.all jsWhitespace
  | _ => false

/-- First character class of the YAML top-level key regex. -/
def isYamlKeyChar1 (c : Char) : Bool :=
  ('A' ≤ c ∧ c ≤ 'Z') ∨ ('a' ≤ c ∧ c ≤ 'z') ∨ c = '_'

/-- Continuation character class of the YAML top-level key regex. -/
def isYamlKeyChar (c : Char) : Bool :=
  isYamlKeyChar1 c ∨ ('0' ≤ c ∧ c ≤ '9') ∨ c = '.' ∨ c = '-'

/-- The YAML top-level key test `/^[A-Za-z_][A-Za-z0-9_.\-]*\s*:/.test(line)`. -/
def isYamlKey (line : String) : Bool :=
  match line.toList with
  | [] => false
  | c :: rest =>
    isYamlKeyChar1 c &&
      match (rest.dropWhile isYamlKeyChar).dropWhile jsWhitespace with
      | ':' :: _ => true
      | _ => false

/-- Indices (0-based) of the lines satisfying a predicate, in order. -/
def findIdxsAux (p : String → Bool) : List String → Nat → List Nat
  | [], _ => []
  | l :: rest, i =>
    if p l then i :: findIdxsAux p rest (i + 1) else findIdxsAux p rest (i + 1)

/-- Indices of the lines satisfying a predicate (the `for` scans that build
`docStarts` and `keyStarts` in `chunkYaml`). -/
def findIdxs (p : String → Bool) (lines : List String) : List Nat :=
  findIdxsAux p lines 0

/-- The key-span emission loop of `chunkYaml`: each start index spans to the
line before the next start (the last one to EOF); blank spans are skipped. -/
def yamlSpans (h : String → String) (lines : List String) : List Nat → List MemoryChunk
  | [] => []
  | s :: rest =>
    let e :=
      match rest with
      | s' :: _ => s' - 1
      | [] => lines.length - 1
    let text := jsJoinNl ((lines.drop s).take (e + 1 - s))
    (if (jsTrim text).length = 0 then [] else [⟨s + 1, e + 1, text, h text⟩])
      ++ yamlSpans h lines rest

/-- The blank test of `chunkYamlDocs`:
`text.replace(/^---\s*$/gm, "").trim().length === 0`. -/
def yamlDocBlank (text : String) : Bool :=
  (jsTrim (jsJoinNl ((jsSplitNl text).map fun l => if isDocSep l then "" else l))).length = 0

/-- The document-span emission loop of `chunkYamlDocs`. -/
def yamlDocSpans (h : String → String) (lines : List String) : List Nat → List MemoryChunk
  | [] => []
  | s :: rest =>
    let e :=
      match rest with
      | s' :: _ => s' - 1
      | [] => lines.length - 1
    let text := jsJoinNl ((lines.drop s).take (e + 1 - s))
    (if yamlDocBlank text then [] else [⟨s + 1, e + 1, text, h text⟩])
      ++ yamlDocSpans h lines rest

/-- `chunkYaml` from src/internal.ts: split by `---` documents when there
are at least two separators, else by top-level keys, else a single chunk. -/
def chunkYaml (h : String → String) (content : String) : List MemoryChunk :=
  let lines := jsSplitNl content
  if lines = [] then []
  else
    let docStarts := findIdxs isDocSep lines
    if 2 ≤ docStarts.length then yamlDocSpans h lines docStarts
    else
      let keyStarts := findIdxs isYamlKey lines
      if keyStarts.length ≤ 1 then singleChunk h content lines
      else
        let cs := yamlSpans h lines keyStarts
        if cs = [] then singleChunk h content lines else cs

/-- Observation of `JSON.parse` made by `chunkJson`: failure, scalar root
(including `null`), array root with its length, or object root with its
top-level key list. -/
inductive JsonF where
  | scalar
  | arr (len : Nat)
  | obj (keys : List String)
deriving DecidableEq, Repr

/-- `text.replace(/,\s*$/, "")`: when the text ends with a comma followed
only by whitespace, remove the comma and that whitespace. -/
def stripTrailingComma (t : String) : String :=
  let u := jsTrimEndList t.toList
  if u.getLast? = some ',' then String.mk u.dropLast else t

/-- The top-level key match `line.match(/^\s*"([^"]+)"\s*:/)`, returning the
captured key. -/
def matchTopKey (line : String) : Option String :=
  match line.toList.dropWhile jsWhitespace with
  | '"' :: rest =>
    let key := rest.takeWhile (· ≠ '"')
    if key = [] then none
    else
      match rest.dropWhile (· ≠ '"') with
      | '"' :: rest2 =>
        match rest2.dropWhile jsWhitespace with
        | ':' :: _ => some (String.mk key)
        | _ => none
      | _ => none
  | _ => none

/-- Update the brace/bracket depth across one line's characters. -/
def lineDepthUpd (d : Int) (line : String) : Int :=
  line.toList.foldl
    (fun d ch =>
      if ch = '{' ∨ ch = '[' then d + 1
      else if ch = '}' ∨ ch = ']' then d - 1
      else d) d

/-- The single-pass key scan of `chunkJson`: at depth 1, a line matching the
top-level key regex whose key is still live records `(key, lineIdx)` and
removes the key from the live set. -/
def scanKeysAux : List String → Nat → Int → List String → List (String × Nat)
  | [], _, _, _ => []
  | line :: rest, i, depth, keySet =>
    let hit :=
      if depth = 1 then
        match matchTopKey line with
        | some k => if k ∈ keySet then some k else none
        | none => none
      else none
    let depth' := lineDepthUpd depth line
    match hit with
    | some k => (k, i) :: scanKeysAux rest (i + 1) depth' (keySet.erase k)
    | none => scanKeysAux rest (i + 1) depth' keySet

/-- The chunk emission loop of `chunkJson` over the sorted key positions:
span to the line before the next key (the last key to EOF), join, strip a
trailing comma, skip blanks. -/
def jsonKeySpans (h : String → String) (lines : List String) :
    List (String × Nat) → List MemoryChunk
  | [] => []
  | (_, s) :: rest =>
    let e :=
      match rest with
      | (_, s') :: _ => s' - 1
      | [] => lines.length - 1
    let text := stripTrailingComma (jsJoinNl ((lines.drop s).take (e + 1 - s)))
    (if (jsTrim text).length = 0 then [] else [⟨s + 1, e + 1, text, h text⟩])
      ++ jsonKeySpans h lines rest

/-- One character step of the `chunkJsonArray` scan (depth tracking, element
start detection at depth 2, element emission when depth returns to 1). -/
def jsonArrStep (h : String → String) (lines : List String) (i : Nat)
    (st : Int × Option Nat × List MemoryChunk) (ch : Char) :
    Int × Option Nat × List MemoryChunk :=
  let dOpen := if ch = '{' ∨ ch = '[' then st.1 + 1 else st.1
  let esOpen :=
    if ch = '{' ∨ ch = '[' then
      if dOpen = 2 ∧ st.2.1 = none then some i else st.2.1
    else st.2.1
  if ch = '}' ∨ ch = ']' then
    match esOpen with
    | some j =>
      if dOpen - 1 = 1 then
        let text := stripTrailingComma (jsJoinNl ((lines.drop j).take (i + 1 - j)))
        (dOpen - 1, none,
          st.2.2 ++ if (jsTrim text).length = 0 then [] else [⟨j + 1, i + 1, text, h text⟩])
      else (dOpen - 1, some j, st.2.2)
    | none => (dOpen - 1, none, st.2.2)
  else (dOpen, esOpen, st.2.2)

/-- The line loop of `chunkJsonArray`. -/
def jsonArrLoop (h : String → String) (lines : List String) :
    List String → Nat → Int × Option Nat × List MemoryChunk → List MemoryChunk
  | [], _, st => st.2.2
  | line :: rest, i, st =>
    jsonArrLoop h lines rest (i + 1) (line.toList.foldl (jsonArrStep h lines i) st)

/-- `chunkJsonArray` from src/internal.ts. -/
def chunkJsonArray (h : String → String) (len : Nat) (lines : List String)
    (content : String) : List MemoryChunk :=
  if len ≤ 1 then singleChunk h content lines
  else
    let cs := jsonArrLoop h lines lines 0 (0, none, [])
    if cs = [] then singleChunk h content lines else cs

/-- `chunkJson` from src/internal.ts, parametrized by the `JSON.parse`
observation. -/
def chunkJson (h : String → String) (parse : String → Option JsonF)
    (content : String) : List MemoryChunk :=
  let lines := jsSplitNl content
  match parse content with
  | none => singleChunk h content lines
  | some (.arr n) => chunkJsonArray h n lines content
  | some .scalar => singleChunk h content lines
  | some (.obj keys) =>
    if keys = [] then singleChunk h content lines
    else
      let keyPositions := scanKeysAux lines 0 0 keys
      if keyPositions = [] then singleChunk h content lines
      else
        let sorted := keyPositions.mergeSort (fun a b => decide (a.2 ≤ b.2))
        let cs := jsonKeySpans h lines sorted
        if cs = [] then singleChunk h content lines else cs

/-- The inner line walk of `splitOversized` for one oversized chunk. -/
def soLoop (h : String → String) (maxChars startLine0 : Nat) :
    List String → Nat → List String → Nat → Nat → List MemoryChunk → List MemoryChunk
  | [], _, buf, bufStart, _, out =>
    match buf with
    | [] => out
    | _ =>
      let text := jsJoinNl buf
      out ++ [⟨bufStart, bufStart + buf.length - 1, text, h text⟩]
  | line :: rest, i, buf, bufStart, bufChars, out =>
    if maxChars < bufChars + line.length + 1 ∧ buf ≠ [] then
      let text := jsJoinNl buf
      soLoop h maxChars startLine0 rest (i + 1) [line] (startLine0 + i) (line.length + 1)
        (out ++ [⟨bufStart, bufStart + buf.length - 1, text, h text⟩])
    else
      soLoop h maxChars startLine0 rest (i + 1) (buf ++ [line]) bufStart
        (bufChars + line.length + 1) out

/-- `splitOversized` from src/internal.ts: split chunks whose text exceeds
`maxChars` into consecutive line-based sub-chunks, preserving line numbers. -/
def splitOversized (h : String → String) (maxChars : Nat)
    (chunks : List MemoryChunk) : List MemoryChunk :=
  chunks.foldl
    (fun result c =>
      if c.text.length ≤ maxChars then result ++ [c]
      else soLoop h maxChars c.startLine (jsSplitNl c.text) 0 [] c.startLine 0 result)
    []

/-- `chunkFile` from src/internal.ts: strategy dispatch on the lowercased
extension, with oversize splitting for the non-markdown strategies. -/
def chunkFile (h : String → String) (parse : String → Option JsonF)
    (content filePath : String) (chunkSize : Option Nat) : List MemoryChunk :=
  let maxChars := chunkSize.getD 512 * 4
  let ext := extOf filePath
  if ext = ".json" then splitOversized h maxChars (chunkJson h parse content)
  else if ext = ".jsonl" then splitOversized h maxChars (chunkJsonl h content)
  else if ext = ".yaml" ∨ ext = ".yml" then splitOversized h maxChars (chunkYaml h content)
  else
    chunkMarkdown h content
      (match chunkSize with
       | some n => ⟨n, n / 8⟩
       | none => ⟨512, 64⟩)

/-! ## C2: markdown heading flush and the four-line example -/

/-- C2. In the markdown walk, a heading line with a non-empty buffer flushes
the buffer first and then starts the new buffer with the heading line; with
default parameters the four-line input `# Title\nLine two\n## Sub\nLine four`
yields exactly the two chunks `[1..2]` and `[3..4]`. -/
theorem c2_markdown_heading_flush :
    (∀ (h : String → String) (maxChars ovChars : Nat) (line : String)
        (rest : List String) (lineNo : Nat) (st : MdState),
        isHeading line = true → st.current ≠ [] →
        mdLoop h maxChars ovChars (line :: rest) lineNo st =
          mdLoop h maxChars ovChars rest (lineNo + 1)
            ⟨mdFlush h st.chunks st.current, [(line, lineNo)], line.length + 1⟩)
    ∧ ∀ h : String → String,
        (chunkMarkdown h "# Title\nLine two\n## Sub\nLine four").map
            (fun c => (c.startLine, c.endLine, c.text)) =
          [(1, 2, "# Title\nLine two"), (3, 4, "## Sub\nLine four")] := by
  constructor
  · intro h maxChars ovChars line rest lineNo st hhead hcur
    rw [mdLoop]
    simp [mdStep, hhead, hcur]
  · intro h
    rfl

/-- Witness for C2's heading-flush step at a concrete state. -/
theorem c2_markdown_heading_flush_witness :
    mdLoop (fun s => s) 2048 256 ["## Sub", "tail"] 3 ⟨[], [("# Top", 1), ("body", 2)], 11⟩ =
      mdLoop (fun s => s) 2048 256 ["tail"] 4
        ⟨mdFlush (fun s => s) [] [("# Top", 1), ("body", 2)], [("## Sub", 3)], 7⟩ :=
  c2_markdown_heading_flush.1 (fun s => s) 2048 256 "## Sub" ["tail"] 3
    ⟨[], [("# Top", 1), ("body", 2)], 11⟩ (by decide) (by decide)

/-! ## C6 infrastructure: line slices and the chunk-text invariant -/

/-- The exact text of the file's lines `s..e` (1-based, inclusive) joined by
newline. -/
def sliceText (ls : List String) (s e : Nat) : String :=
  jsJoinNl ((ls.drop (s - 1)).take (e + 1 - s))

/-- A chunk whose range is a contiguous non-empty 1-based range within the
file and whose text is the exact slice. -/
def chunkExact (ls : List String) (c : MemoryChunk) : Prop :=
  1 ≤ c.startLine ∧ c.startLine ≤ c.endLine ∧ c.endLine ≤ ls.length ∧
  c.text = sliceText ls c.startLine c.endLine

/-- The invariant that actually holds of every chunk the Chunker produces:
valid contiguous range, and text equal to the exact slice, to the slice with
a trailing comma-plus-whitespace removed (JSON strategies), or to the
trimmed single line (JSONL strategy). -/
def ChunkOkM (ls : List String) (c : MemoryChunk) : Prop :=
  1 ≤ c.startLine ∧ c.startLine ≤ c.endLine ∧ c.endLine ≤ ls.length ∧
  (c.text = sliceText ls c.startLine c.endLine
    ∨ c.text = stripTrailingComma (sliceText ls c.startLine c.endLine)
    ∨ (c.startLine = c.endLine ∧ c.text = jsTrim (sliceText ls c.startLine c.endLine)))

theorem chunkExact.okM {ls : List String} {c : MemoryChunk}
    (h : chunkExact ls c) : ChunkOkM ls c :=
  ⟨h.1, h.2.1, h.2.2.1, Or.inl h.2.2.2⟩

/-- Lines produced by `split("\n")` contain no newline character. -/
def NoNl (ls : List String) : Prop := ∀ l ∈ ls, '\n' ∉ l.toList

theorem noNl_jsSplitNl (content : String) : NoNl (jsSplitNl content) := by
  intro l hl
  simp only [jsSplitNl, List.mem_map] at hl
  obtain ⟨p, hp, rfl⟩ := hl
  exact splitCh_no_sep '\n' content.toList p hp

theorem jsSplitNl_ne_nil (content : String) : jsSplitNl content ≠ [] := by
  simp only [jsSplitNl, ne_eq, List.map_eq_nil_iff]
  exact splitCh_ne_nil '\n' content.toList

theorem toList_mk (cs : List Char) : (String.mk cs).toList = cs := rfl

theorem mk_toList (s : String) : String.mk s.toList = s := rfl

/-- Join-then-split is the identity on non-empty newline-free line lists. -/
theorem jsSplitNl_jsJoinNl (parts : List String) (hne : parts ≠ [])
    (hnl : NoNl parts) : jsSplitNl (jsJoinNl parts) = parts := by
  unfold jsSplitNl jsJoinNl
  rw [toList_mk, splitCh_joinCh '\n' (parts.map String.toList)
    (by simpa using hne)
    (by intro p hp
        simp only [List.mem_map] at hp
        obtain ⟨l, hl, rfl⟩ := hp
        exact hnl l hl)]
  rw [List.map_map]
  have hid : (String.mk ∘ String.toList) = id := funext fun s => rfl
  rw [hid, List.map_id]

/-- Split-then-join is the identity. -/
theorem jsJoinNl_jsSplitNl (content : String) : jsJoinNl (jsSplitNl content) = content := by
  unfold jsSplitNl jsJoinNl
  rw [List.map_map]
  have : (String.toList ∘ String.mk) = id := funext fun cs => rfl
  rw [this, List.map_id, joinCh_splitCh, mk_toList]

theorem jsJoinNl_singleton (x : String) : jsJoinNl [x] = x := rfl

theorem sliceText_single (ls : List String) (i : Nat) (hi : i < ls.length) :
    sliceText ls (i + 1) (i + 1) = ls.getD i "" := by
  unfold sliceText
  have h1 : i + 1 + 1 - (i + 1) = 1 := by omega
  rw [h1, Nat.add_sub_cancel]
  rw [List.drop_eq_getElem_cons hi, List.take_succ_cons, List.take_zero]
  rw [List.getD_eq_getElem ls "" hi]
  rfl

/-- A whole-file slice is the file itself. -/
theorem sliceText_all (ls : List String) :
    sliceText ls 1 ls.length = jsJoinNl ls := by
  unfold sliceText
  rw [Nat.sub_self, List.drop_zero]
  rw [List.take_of_length_le (by omega)]

/-! ### Markdown chunk exactness -/

/-- The buffer built by the markdown walk over lines `k+1 .. k+m` (1-based):
each entry is the file's line paired with its line number. -/
def mkRun (ls : List String) (k m : Nat) : List (String × Nat) :=
  (List.range' k m).map (fun j => (ls.getD j "", j + 1))

theorem mkRun_cons (ls : List String) (k m : Nat) :
    mkRun ls k (m + 1) = (ls.getD k "", k + 1) :: mkRun ls (k + 1) m := by
  rw [mkRun, List.range'_succ, List.map_cons, mkRun]

theorem mkRun_concat (ls : List String) (k m : Nat) :
    mkRun ls k (m + 1) = mkRun ls k m ++ [(ls.getD (k + m) "", k + m + 1)] := by
  rw [mkRun, List.range'_concat, List.map_append, mkRun]
  simp

theorem range'_drop (d : Nat) : ∀ (k m : Nat),
    (List.range' k m).drop d = List.range' (k + d) (m - d) := by
  induction d with
  | zero => intro k m; simp
  | succ d ih =>
    intro k m
    cases m with
    | zero => simp
    | succ m' =>
      rw [List.range'_succ, List.drop_succ_cons, ih (k + 1) m']
      congr 1 <;> omega

theorem mkRun_drop_eq (ls : List String) (k m d : Nat) :
    (mkRun ls k m).drop d = mkRun ls (k + d) (m - d) := by
  rw [mkRun, ← List.map_drop, range'_drop, mkRun]

theorem take_drop_eq_map_range (ls : List String) :
    ∀ (m k : Nat), k + m ≤ ls.length →
      (ls.drop k).take m = (List.range' k m).map (fun j => ls.getD j "") := by
  intro m
  induction m with
  | zero => intro k _; simp
  | succ m ih =>
    intro k hk
    have hklt : k < ls.length := by omega
    rw [List.range'_succ, List.map_cons, List.drop_eq_getElem_cons hklt,
      List.take_succ_cons, ih (k + 1) (by omega), List.getD_eq_getElem ls "" hklt]

theorem sliceText_run (ls : List String) (k m : Nat) (hm : 1 ≤ m)
    (hb : k + m ≤ ls.length) :
    sliceText ls (k + 1) (k + m) = jsJoinNl ((List.range' k m).map (fun j => ls.getD j "")) := by
  unfold sliceText
  rw [show k + 1 - 1 = k by omega, show k + m + 1 - (k + 1) = m by omega,
    take_drop_eq_map_range ls m k hb]

theorem mdFlush_cons (h : String → String) (chunks : List MemoryChunk)
    (e : String × Nat) (rest : List (String × Nat)) :
    mdFlush h chunks (e :: rest) =
      chunks ++ [⟨e.2, ((e :: rest).getLast (by simp)).2,
        jsJoinNl ((e :: rest).map Prod.fst),
        h (jsJoinNl ((e :: rest).map Prod.fst))⟩] := rfl

theorem mdFlush_run (h : String → String) (chunks : List MemoryChunk)
    (ls : List String) (k m : Nat) (hm : 1 ≤ m) (hb : k + m ≤ ls.length) :
    mdFlush h chunks (mkRun ls k m) =
      chunks ++ [⟨k + 1, k + m, sliceText ls (k + 1) (k + m),
        h (sliceText ls (k + 1) (k + m))⟩] := by
  obtain ⟨m', rfl⟩ : ∃ m', m = m' + 1 := ⟨m - 1, by omega⟩
  have htext : jsJoinNl ((mkRun ls k (m' + 1)).map Prod.fst) =
      sliceText ls (k + 1) (k + (m' + 1)) := by
    rw [sliceText_run ls k (m' + 1) (by omega) hb, mkRun, List.map_map]
    rfl
  have hlastq : (mkRun ls k (m' + 1)).getLast? =
      some (ls.getD (k + m') "", k + m' + 1) := by
    rw [mkRun_concat ls k m']
    exact List.getLast?_concat _
  rcases hr : mkRun ls k (m' + 1) with _ | ⟨e, rest⟩
  · exact absurd hr (by rw [mkRun_cons]; simp)
  · rw [hr] at htext hlastq
    have he : e = (ls.getD k "", k + 1) := by
      have hc := mkRun_cons ls k m'
      rw [hr] at hc
      injection hc with h1 h2
    have hl : ((e :: rest).getLast (by simp)) = (ls.getD (k + m') "", k + m' + 1) := by
      rw [List.getLast?_eq_getLast (e :: rest) (by simp)] at hlastq
      exact Option.some.inj hlastq
    rw [mdFlush_cons, hl, htext, he]
    dsimp only
    rw [show k + m' + 1 = k + (m' + 1) from by omega]

theorem carryKeep_take (ov : Nat) : ∀ (l : List (String × Nat)) (acc : Nat),
    ∃ t, carryKeep ov l acc = l.take t := by
  intro l
  induction l with
  | nil => intro acc; exact ⟨0, rfl⟩
  | cons e rest ih =>
    intro acc
    rw [carryKeep]
    split
    · exact ⟨1, rfl⟩
    · obtain ⟨t, ht⟩ := ih (acc + e.1.length + 1)
      exact ⟨t + 1, by rw [ht, List.take_succ_cons]⟩

theorem carryOverlap_suffix (ov : Nat) (cur : List (String × Nat)) :
    ∃ d, (carryOverlap ov cur).1 = cur.drop d := by
  unfold carryOverlap
  split
  · exact ⟨cur.length, by simp⟩
  · obtain ⟨t, ht⟩ := carryKeep_take ov cur.reverse 0
    refine ⟨cur.length - t, ?_⟩
    simp only [ht]
    rw [← List.rtake_eq_reverse_take_reverse, List.rtake]

/-- Main invariant of the markdown walk: with the remaining lines at the
right offset, exact chunks so far, and a consecutive-run buffer ending at
line `n - 1`, every chunk of the final flushed state is exact. -/
theorem mdLoop_exact (h : String → String) (maxC ovC : Nat) (ls : List String) :
    ∀ (rem : List String) (n : Nat) (st : MdState),
      rem = ls.drop (n - 1) → 1 ≤ n → n - 1 ≤ ls.length →
      (∀ c ∈ st.chunks, chunkExact ls c) →
      (st.current = [] ∨ ∃ m, 1 ≤ m ∧ m ≤ n - 1 ∧ st.current = mkRun ls (n - 1 - m) m) →
      ∀ c ∈ mdFlush h (mdLoop h maxC ovC rem n st).chunks
          (mdLoop h maxC ovC rem n st).current,
        chunkExact ls c := by
  intro rem
  induction rem with
  | nil =>
    intro n st _ hn hnlen hch hcur c hc
    rw [mdLoop] at hc
    rcases hcur with hcur | ⟨m, hm1, hmn, hcur⟩
    · rw [hcur, mdFlush] at hc
      exact hch c hc
    · rw [hcur, mdFlush_run h st.chunks ls (n - 1 - m) m hm1 (by omega)] at hc
      rcases List.mem_append.mp hc with hc | hc
      · exact hch c hc
      · rcases List.mem_singleton.mp hc with rfl
        refine ⟨?_, ?_, ?_, rfl⟩ <;> dsimp only <;> omega
  | cons line rest ih =>
    intro n st hrem hn hnlen hch hcur
    have hlen : n - 1 < ls.length := by
      have hlone : (ls.drop (n - 1)).length = ls.length - (n - 1) := List.length_drop _ _
      rw [← hrem] at hlone
      simp at hlone
      omega
    have hline : line = ls.getD (n - 1) "" := by
      rw [List.drop_eq_getElem_cons hlen] at hrem
      injection hrem with h1 _
      rw [h1, List.getD_eq_getElem ls "" hlen]
    have hrest : rest = ls.drop n := by
      rw [List.drop_eq_getElem_cons hlen] at hrem
      injection hrem with _ h2
      rw [h2]
      congr 1
      omega
    have hflush_exact : st.current ≠ [] →
        ∀ c ∈ mdFlush h st.chunks st.current, chunkExact ls c := by
      intro hne c hc
      rcases hcur with hcur | ⟨m, hm1, hmn, hcur⟩
      · exact absurd hcur hne
      · rw [hcur, mdFlush_run h st.chunks ls (n - 1 - m) m hm1 (by omega)] at hc
        rcases List.mem_append.mp hc with hc | hc
        · exact hch c hc
        · rcases List.mem_singleton.mp hc with rfl
          refine ⟨?_, ?_, ?_, rfl⟩ <;> dsimp only <;> omega
    have hch' : ∀ c ∈ (mdStep h maxC ovC line st).chunks, chunkExact ls c := by
      unfold mdStep
      split
      · next hcond => exact hflush_exact hcond.2
      · split
        · next hcond => exact hflush_exact hcond.2
        · exact hch
    have hcur' : (mdStep h maxC ovC line st).current = [] ∨
        ∃ m, 1 ≤ m ∧ m ≤ n - 1 ∧
          (mdStep h maxC ovC line st).current = mkRun ls (n - 1 - m) m := by
      unfold mdStep
      split
      · exact Or.inl rfl
      · split
        · next hcond =>
          rcases hcur with hcur | ⟨m, hm1, hmn, hcur⟩
          · exact absurd hcur hcond.2
          · obtain ⟨d, hd⟩ := carryOverlap_suffix ovC st.current
            rcases le_or_lt m d with hmd | hdm
            · refine Or.inl ?_
              dsimp only
              rw [hd, hcur, mkRun_drop_eq, show m - d = 0 from by omega]
              rfl
            · refine Or.inr ⟨m - d, by omega, by omega, ?_⟩
              dsimp only
              rw [hd, hcur, mkRun_drop_eq]
              congr 1
              omega
        · exact hcur
    have hpush : ∃ m, 1 ≤ m ∧ m ≤ n ∧
        (mdStep h maxC ovC line st).current ++ [(line, n)] = mkRun ls (n - m) m := by
      rcases hcur' with hc' | ⟨m, hm1, hmn, hc'⟩
      · refine ⟨1, le_refl 1, hn, ?_⟩
        rw [hc', List.nil_append, mkRun, List.range'_one, List.map_singleton, hline]
        have : n - 1 + 1 = n := by omega
        rw [this]
      · refine ⟨m + 1, by omega, by omega, ?_⟩
        rw [hc']
        have hcc : mkRun ls (n - 1 - m) (m + 1) =
            mkRun ls (n - 1 - m) m ++ [(ls.getD (n - 1 - m + m) "", n - 1 - m + m + 1)] :=
          mkRun_concat ls (n - 1 - m) m
        rw [show n - 1 - m + m = n - 1 from by omega] at hcc
        rw [show n - 1 + 1 = n from by omega] at hcc
        rw [← hline] at hcc
        rw [← hcc]
        congr 1
        omega
    rw [mdLoop]
    intro c hc
    refine ih (n + 1)
      ⟨(mdStep h maxC ovC line st).chunks,
        (mdStep h maxC ovC line st).current ++ [(line, n)],
        (mdStep h maxC ovC line st).currentChars + (line.length + 1)⟩
      (by simpa using hrest) (by omega) (by omega)
      hch' ?_ c ?_
    · rw [show n + 1 - 1 = n from by omega]
      exact Or.inr hpush
    · exact hc

/-- Every chunk produced by `chunkMarkdown` is an exact slice. -/
theorem chunkMarkdown_exact (h : String → String) (content : String) (opts : MdOpts) :
    ∀ c ∈ chunkMarkdown h content opts, chunkExact (jsSplitNl content) c := by
  intro c hc
  have heq : chunkMarkdown h content opts =
      mdFlush h
        (mdLoop h (max 32 (opts.tokens * 4)) (opts.overlap * 4)
          (jsSplitNl content) 1 ⟨[], [], 0⟩).chunks
        (mdLoop h (max 32 (opts.tokens * 4)) (opts.overlap * 4)
          (jsSplitNl content) 1 ⟨[], [], 0⟩).current := by
    simp only [chunkMarkdown]
    rw [if_neg (jsSplitNl_ne_nil content)]
  rw [heq] at hc
  exact mdLoop_exact h (max 32 (opts.tokens * 4)) (opts.overlap * 4) (jsSplitNl content)
    (jsSplitNl content) 1 ⟨[], [], 0⟩ (by simp) (le_refl 1) (by omega)
    (by simp) (Or.inl rfl) c hc

/-! ### YAML, JSONL and JSON chunk invariants -/

theorem chunkExact_mk (ls : List String) (s e : Nat) (t ht : String)
    (h1 : 1 ≤ s) (h2 : s ≤ e) (h3 : e ≤ ls.length) (h4 : t = sliceText ls s e) :
    chunkExact ls ⟨s, e, t, ht⟩ := ⟨h1, h2, h3, h4⟩

theorem chunkOkM_mk_strip (ls : List String) (s e : Nat) (t ht : String)
    (h1 : 1 ≤ s) (h2 : s ≤ e) (h3 : e ≤ ls.length)
    (h4 : t = stripTrailingComma (sliceText ls s e)) :
    ChunkOkM ls ⟨s, e, t, ht⟩ := ⟨h1, h2, h3, Or.inr (Or.inl h4)⟩

theorem chunkOkM_mk_trim (ls : List String) (s : Nat) (t ht : String)
    (h1 : 1 ≤ s) (h3 : s ≤ ls.length) (h4 : t = jsTrim (sliceText ls s s)) :
    ChunkOkM ls ⟨s, s, t, ht⟩ := ⟨h1, le_refl s, h3, Or.inr (Or.inr ⟨rfl, h4⟩)⟩

theorem slice_arith (ls : List String) (s e : Nat) :
    sliceText ls (s + 1) (e + 1) = jsJoinNl ((ls.drop s).take (e + 1 - s)) := by
  unfold sliceText
  rw [show s + 1 - 1 = s from by omega, show e + 1 + 1 - (s + 1) = e + 1 - s from by omega]

theorem span_chunk_exact (ls : List String) (h : String → String) (s e : Nat)
    (hs : s ≤ e) (he : e < ls.length) :
    chunkExact ls ⟨s + 1, e + 1, jsJoinNl ((ls.drop s).take (e + 1 - s)),
      h (jsJoinNl ((ls.drop s).take (e + 1 - s)))⟩ :=
  chunkExact_mk ls (s + 1) (e + 1) _ _ (by omega) (by omega) (by omega)
    (slice_arith ls s e).symm

theorem span_chunk_strip (ls : List String) (h : String → String) (s e : Nat)
    (hs : s ≤ e) (he : e < ls.length) :
    ChunkOkM ls ⟨s + 1, e + 1, stripTrailingComma (jsJoinNl ((ls.drop s).take (e + 1 - s))),
      h (stripTrailingComma (jsJoinNl ((ls.drop s).take (e + 1 - s))))⟩ :=
  chunkOkM_mk_strip ls (s + 1) (e + 1) _ _ (by omega) (by omega) (by omega)
    (by rw [slice_arith ls s e])

theorem findIdxsAux_mem (p : String → Bool) :
    ∀ (rem : List String) (i0 x : Nat), x ∈ findIdxsAux p rem i0 →
      i0 ≤ x ∧ x < i0 + rem.length := by
  intro rem
  induction rem with
  | nil => intro i0 x hx; simp [findIdxsAux] at hx
  | cons l rest ih =>
    intro i0 x hx
    rw [findIdxsAux] at hx
    split at hx
    · rcases List.mem_cons.mp hx with rfl | hx
      · simp
      · have := ih (i0 + 1) x hx
        constructor <;> [omega; (simp only [List.length_cons]; omega)]
    · have := ih (i0 + 1) x hx
      constructor <;> [omega; (simp only [List.length_cons]; omega)]

theorem findIdxsAux_pairwise (p : String → Bool) :
    ∀ (rem : List String) (i0 : Nat), (findIdxsAux p rem i0).Pairwise (· < ·) := by
  intro rem
  induction rem with
  | nil => intro i0; simp [findIdxsAux]
  | cons l rest ih =>
    intro i0
    rw [findIdxsAux]
    split
    · exact List.pairwise_cons.mpr
        ⟨fun x hx => by have := findIdxsAux_mem p rest (i0 + 1) x hx; omega, ih (i0 + 1)⟩
    · exact ih (i0 + 1)

theorem yamlSpans_exact (h : String → String) (ls : List String) :
    ∀ starts : List Nat, starts.Pairwise (· < ·) → (∀ x ∈ starts, x < ls.length) →
      ∀ c ∈ yamlSpans h ls starts, chunkExact ls c := by
  intro starts
  induction starts with
  | nil => intro _ _ c hc; simp [yamlSpans] at hc
  | cons st rest ih =>
    intro hpw hb c hc
    have hstlen : st < ls.length := hb st (by simp)
    have htl := (List.pairwise_cons.mp hpw).2
    have hbtl : ∀ x ∈ rest, x < ls.length := fun x hx => hb x (by simp [hx])
    cases rest with
    | nil =>
      rw [yamlSpans] at hc
      rcases List.mem_append.mp hc with hc | hc
      · split at hc
        · simp at hc
        · rcases List.mem_singleton.mp hc with rfl
          exact span_chunk_exact ls h st (ls.length - 1) (by omega) (by omega)
      · simp [yamlSpans] at hc
    | cons s' rest' =>
      rw [yamlSpans] at hc
      have hs' : st < s' := (List.pairwise_cons.mp hpw).1 s' (by simp)
      have hs'len : s' < ls.length := hb s' (by simp)
      rcases List.mem_append.mp hc with hc | hc
      · split at hc
        · simp at hc
        · rcases List.mem_singleton.mp hc with rfl
          exact span_chunk_exact ls h st (s' - 1) (by omega) (by omega)
      · exact ih htl hbtl c hc

theorem yamlDocSpans_exact (h : String → String) (ls : List String) :
    ∀ starts : List Nat, starts.Pairwise (· < ·) → (∀ x ∈ starts, x < ls.length) →
      ∀ c ∈ yamlDocSpans h ls starts, chunkExact ls c := by
  intro starts
  induction starts with
  | nil => intro _ _ c hc; simp [yamlDocSpans] at hc
  | cons st rest ih =>
    intro hpw hb c hc
    have hstlen : st < ls.length := hb st (by simp)
    have htl := (List.pairwise_cons.mp hpw).2
    have hbtl : ∀ x ∈ rest, x < ls.length := fun x hx => hb x (by simp [hx])
    cases rest with
    | nil =>
      rw [yamlDocSpans] at hc
      rcases List.mem_append.mp hc with hc | hc
      · split at hc
        · simp at hc
        · rcases List.mem_singleton.mp hc with rfl
          exact span_chunk_exact ls h st (ls.length - 1) (by omega) (by omega)
      · simp [yamlDocSpans] at hc
    | cons s' rest' =>
      rw [yamlDocSpans] at hc
      have hs' : st < s' := (List.pairwise_cons.mp hpw).1 s' (by simp)
      have hs'len : s' < ls.length := hb s' (by simp)
      rcases List.mem_append.mp hc with hc | hc
      · split at hc
        · simp at hc
        · rcases List.mem_singleton.mp hc with rfl
          exact span_chunk_exact ls h st (s' - 1) (by omega) (by omega)
      · exact ih htl hbtl c hc

theorem jsonKeySpans_okM (h : String → String) (ls : List String) :
    ∀ pos : List (String × Nat), pos.Pairwise (fun a b => a.2 < b.2) →
      (∀ x ∈ pos, x.2 < ls.length) → ∀ c ∈ jsonKeySpans h ls pos, ChunkOkM ls c := by
  intro pos
  induction pos with
  | nil => intro _ _ c hc; simp [jsonKeySpans] at hc
  | cons pr rest ih =>
    intro hpw hb c hc
    have hstlen : pr.2 < ls.length := hb pr (by simp)
    have htl := (List.pairwise_cons.mp hpw).2
    have hbtl : ∀ x ∈ rest, x.2 < ls.length := fun x hx => hb x (by simp [hx])
    rcases pr with ⟨k, st⟩
    cases rest with
    | nil =>
      rw [jsonKeySpans] at hc
      rcases List.mem_append.mp hc with hc | hc
      · split at hc
        · simp at hc
        · rcases List.mem_singleton.mp hc with rfl
          exact span_chunk_strip ls h st (ls.length - 1) (by simp at hstlen; omega)
            (by simp at hstlen; omega)
      · simp [jsonKeySpans] at hc
    | cons pr' rest' =>
      rw [jsonKeySpans] at hc
      have hs' : st < pr'.2 := (List.pairwise_cons.mp hpw).1 pr' (by simp)
      have hs'len : pr'.2 < ls.length := hb pr' (by simp)
      rcases List.mem_append.mp hc with hc | hc
      · split at hc
        · simp at hc
        · rcases List.mem_singleton.mp hc with rfl
          exact span_chunk_strip ls h st (pr'.2 - 1) (by omega) (by omega)
      · exact ih htl hbtl c hc

theorem singleChunk_exact (h : String → String) (content : String) :
    ∀ c ∈ singleChunk h content (jsSplitNl content), chunkExact (jsSplitNl content) c := by
  intro c hc
  unfold singleChunk at hc
  split at hc
  · simp at hc
  · rcases List.mem_singleton.mp hc with rfl
    have hne := jsSplitNl_ne_nil content
    have hlen : 1 ≤ (jsSplitNl content).length := List.length_pos.mpr hne
    refine ⟨le_refl 1, hlen, le_refl _, ?_⟩
    dsimp only
    rw [sliceText_all, jsJoinNl_jsSplitNl]

theorem jsonlLoop_okM (h : String → String) (ls : List String) :
    ∀ (rem : List String) (i0 : Nat), rem = ls.drop i0 →
      ∀ c ∈ jsonlLoop h rem i0, ChunkOkM ls c := by
  intro rem
  induction rem with
  | nil => intro i0 _ c hc; simp [jsonlLoop] at hc
  | cons l rest ih =>
    intro i0 hrem c hc
    have hi0 : i0 < ls.length := by
      have hlone : (ls.drop i0).length = ls.length - i0 := List.length_drop _ _
      rw [← hrem] at hlone
      simp at hlone
      omega
    have hl : l = ls.getD i0 "" := by
      rw [List.drop_eq_getElem_cons hi0] at hrem
      injection hrem with h1 _
      rw [h1, List.getD_eq_getElem ls "" hi0]
    have hrest : rest = ls.drop (i0 + 1) := by
      rw [List.drop_eq_getElem_cons hi0] at hrem
      injection hrem with _ h2
    rw [jsonlLoop] at hc
    split at hc
    · exact ih (i0 + 1) hrest c hc
    · rcases List.mem_cons.mp hc with rfl | hc
      · refine chunkOkM_mk_trim ls (i0 + 1) _ _ (by omega) (by omega) ?_
        rw [sliceText_single ls i0 hi0, hl]
      · exact ih (i0 + 1) hrest c hc

theorem scanKeysAux_mem :
    ∀ (rem : List String) (i0 : Nat) (d : Int) (ks : List String) (pr : String × Nat),
      pr ∈ scanKeysAux rem i0 d ks → i0 ≤ pr.2 ∧ pr.2 < i0 + rem.length := by
  intro rem
  induction rem with
  | nil => intro i0 d ks pr hpr; simp [scanKeysAux] at hpr
  | cons line rest ih =>
    intro i0 d ks pr hpr
    rw [scanKeysAux] at hpr
    split at hpr
    · next k _ =>
      rcases List.mem_cons.mp hpr with rfl | hpr
      · simp
      · have := ih (i0 + 1) _ _ pr hpr
        constructor <;> [omega; (simp only [List.length_cons]; omega)]
    · have := ih (i0 + 1) _ _ pr hpr
      constructor <;> [omega; (simp only [List.length_cons]; omega)]

theorem scanKeysAux_pairwise :
    ∀ (rem : List String) (i0 : Nat) (d : Int) (ks : List String),
      (scanKeysAux rem i0 d ks).Pairwise (fun a b => a.2 < b.2) := by
  intro rem
  induction rem with
  | nil => intro i0 d ks; simp [scanKeysAux]
  | cons line rest ih =>
    intro i0 d ks
    rw [scanKeysAux]
    split
    · exact List.pairwise_cons.mpr
        ⟨fun pr hpr => by have := scanKeysAux_mem rest (i0 + 1) _ _ pr hpr; simpa using this.1,
         ih (i0 + 1) _ _⟩
    · exact ih (i0 + 1) _ _

/-- The character scan invariant for `chunkJsonArray`: the element start
never exceeds the current line index and every emitted chunk satisfies the
chunk-text invariant. -/
theorem jsonArrStep_inv (h : String → String) (ls : List String) (i : Nat)
    (hi : i < ls.length) (st : Int × Option Nat × List MemoryChunk) (ch : Char)
    (hst : (∀ j, st.2.1 = some j → j ≤ i) ∧ ∀ c ∈ st.2.2, ChunkOkM ls c) :
    (∀ j, (jsonArrStep h ls i st ch).2.1 = some j → j ≤ i) ∧
      ∀ c ∈ (jsonArrStep h ls i st ch).2.2, ChunkOkM ls c := by
  obtain ⟨d, es, chs⟩ := st
  replace hst : (∀ j, es = some j → j ≤ i) ∧ ∀ c ∈ chs, ChunkOkM ls c := hst
  obtain ⟨hes, hchs⟩ := hst
  have hemit : ∀ j : Nat, j ≤ i →
      ∀ c ∈ chs ++
        (if (jsTrim (stripTrailingComma (jsJoinNl ((ls.drop j).take (i + 1 - j))))).length = 0
          then ([] : List MemoryChunk)
          else [⟨j + 1, i + 1, stripTrailingComma (jsJoinNl ((ls.drop j).take (i + 1 - j))),
            h (stripTrailingComma (jsJoinNl ((ls.drop j).take (i + 1 - j))))⟩]),
        ChunkOkM ls c := by
    intro j hj c hc
    rcases List.mem_append.mp hc with hc | hc
    · exact hchs c hc
    · split at hc
      · simp at hc
      · rcases List.mem_singleton.mp hc with rfl
        exact span_chunk_strip ls h j i hj hi
  unfold jsonArrStep
  by_cases hopen : ch = '{' ∨ ch = '['
  · simp only [if_pos hopen]
    by_cases hclose : ch = '}' ∨ ch = ']'
    · simp only [if_pos hclose]
      by_cases hd2 : (d, es, chs).1 + 1 = 2 ∧ (d, es, chs).2.1 = none
      · simp only [if_pos hd2]
        by_cases hd1 : d + 1 - 1 = 1
        · simp only [if_pos hd1]
          exact ⟨fun j hj => Option.noConfusion hj, hemit i (le_refl i)⟩
        · simp only [if_neg hd1]
          exact ⟨fun j hj => by injection hj with hj'; omega, hchs⟩
      · simp only [if_neg hd2]
        cases es with
        | none => exact ⟨fun j hj => Option.noConfusion hj, hchs⟩
        | some j0 =>
          have hj0 : j0 ≤ i := hes j0 rfl
          by_cases hd1 : d + 1 - 1 = 1
          · simp only [if_pos hd1]
            exact ⟨fun j hj => Option.noConfusion hj, hemit j0 hj0⟩
          · simp only [if_neg hd1]
            exact ⟨fun j hj => by injection hj with hj'; omega, hchs⟩
    · simp only [if_neg hclose]
      by_cases hd2 : (d, es, chs).1 + 1 = 2 ∧ (d, es, chs).2.1 = none
      · simp only [if_pos hd2]
        exact ⟨fun j hj => by injection hj with hj'; omega, hchs⟩
      · simp only [if_neg hd2]
        exact ⟨hes, hchs⟩
  · simp only [if_neg hopen]
    by_cases hclose : ch = '}' ∨ ch = ']'
    · simp only [if_pos hclose]
      cases es with
      | none => exact ⟨fun j hj => Option.noConfusion hj, hchs⟩
      | some j0 =>
        have hj0 : j0 ≤ i := hes j0 rfl
        by_cases hd1 : d - 1 = 1
        · simp only [if_pos hd1]
          exact ⟨fun j hj => Option.noConfusion hj, hemit j0 hj0⟩
        · simp only [if_neg hd1]
          exact ⟨fun j hj => by injection hj with hj'; omega, hchs⟩
    · simp only [if_neg hclose]
      exact ⟨hes, hchs⟩

theorem foldl_jsonArrStep_inv (h : String → String) (ls : List String) (i : Nat)
    (hi : i < ls.length) :
    ∀ (cs : List Char) (st : Int × Option Nat × List MemoryChunk),
      ((∀ j, st.2.1 = some j → j ≤ i) ∧ ∀ c ∈ st.2.2, ChunkOkM ls c) →
      (∀ j, (cs.foldl (jsonArrStep h ls i) st).2.1 = some j → j ≤ i) ∧
        ∀ c ∈ (cs.foldl (jsonArrStep h ls i) st).2.2, ChunkOkM ls c := by
  intro cs
  induction cs with
  | nil => intro st hst; exact hst
  | cons ch rest ih =>
    intro st hst
    exact ih (jsonArrStep h ls i st ch) (jsonArrStep_inv h ls i hi st ch hst)

theorem jsonArrLoop_okM (h : String → String) (ls : List String) :
    ∀ (rem : List String) (i : Nat) (st : Int × Option Nat × List MemoryChunk),
      rem = ls.drop i →
      (∀ j, st.2.1 = some j → j ≤ i) → (∀ c ∈ st.2.2, ChunkOkM ls c) →
      ∀ c ∈ jsonArrLoop h ls rem i st, ChunkOkM ls c := by
  intro rem
  induction rem with
  | nil => intro i st _ _ hchs c hc; rw [jsonArrLoop] at hc; exact hchs c hc
  | cons line rest ih =>
    intro i st hrem hes hchs c hc
    have hi : i < ls.length := by
      have hlone : (ls.drop i).length = ls.length - i := List.length_drop _ _
      rw [← hrem] at hlone
      simp at hlone
      omega
    have hrest : rest = ls.drop (i + 1) := by
      rw [List.drop_eq_getElem_cons hi] at hrem
      injection hrem with _ h2
    rw [jsonArrLoop] at hc
    have hinv := foldl_jsonArrStep_inv h ls i hi line.toList st ⟨hes, hchs⟩
    exact ih (i + 1) _ hrest (fun j hj => by have := hinv.1 j hj; omega) hinv.2 c hc

/-! ### The trailing-comma strip and prefixes of joined lines -/

theorem jsTrimEndList_decomp (cs : List Char) :
    ∃ w, cs = jsTrimEndList cs ++ w ∧ ∀ c ∈ w, jsWhitespace c := by
  refine ⟨(cs.reverse.takeWhile jsWhitespace).reverse, ?_, ?_⟩
  · unfold jsTrimEndList
    conv_lhs => rw [← cs.reverse_reverse]
    rw [← List.reverse_append, List.takeWhile_append_dropWhile]
  · intro c hc
    rw [List.mem_reverse] at hc
    exact List.mem_takeWhile_imp hc

theorem jsTrimEndList_comma (p w : List Char) (hw : ∀ c ∈ w, jsWhitespace c) :
    jsTrimEndList (p ++ ',' :: w) = p ++ [','] := by
  unfold jsTrimEndList
  rw [List.reverse_append, List.reverse_cons, List.append_assoc]
  rw [List.dropWhile_append_of_pos (by intro a ha; rw [List.mem_reverse] at ha; exact hw a ha)]
  rw [List.singleton_append, List.dropWhile_cons_of_neg (by decide)]
  rw [List.reverse_cons, List.reverse_reverse]

theorem strip_of_decomp (p w : List Char) (hw : ∀ c ∈ w, jsWhitespace c) :
    stripTrailingComma (String.mk (p ++ ',' :: w)) = String.mk p := by
  unfold stripTrailingComma
  rw [toList_mk, jsTrimEndList_comma p w hw]
  rw [if_pos (List.getLast?_concat p)]
  rw [List.dropLast_concat]

theorem strip_eq_or_decomp (t : String) :
    stripTrailingComma t = t ∨
      ∃ pc w, t.toList = pc ++ ',' :: w ∧ (∀ c ∈ w, jsWhitespace c) ∧
        (stripTrailingComma t).toList = pc := by
  unfold stripTrailingComma
  by_cases hl : (jsTrimEndList t.toList).getLast? = some ','
  · rw [if_pos hl]
    obtain ⟨w, hw1, hw2⟩ := jsTrimEndList_decomp t.toList
    have hne : jsTrimEndList t.toList ≠ [] := by
      intro h0
      rw [h0] at hl
      simp at hl
    have hlast : (jsTrimEndList t.toList).getLast hne = ',' := by
      rw [List.getLast?_eq_getLast _ hne] at hl
      exact Option.some.inj hl
    have hu : (jsTrimEndList t.toList).dropLast ++ [','] = jsTrimEndList t.toList := by
      rw [← hlast]
      exact List.dropLast_concat_getLast hne
    refine Or.inr ⟨(jsTrimEndList t.toList).dropLast, w, ?_, hw2, toList_mk _⟩
    calc t.toList = jsTrimEndList t.toList ++ w := hw1
    _ = ((jsTrimEndList t.toList).dropLast ++ [',']) ++ w := by rw [hu]
    _ = (jsTrimEndList t.toList).dropLast ++ ',' :: w := by simp
  · rw [if_neg hl]
    exact Or.inl rfl

theorem joinCh_cons₂ (sep : Char) (p q : List Char) (rest : List (List Char)) :
    joinCh sep (p :: q :: rest) = p ++ sep :: joinCh sep (q :: rest) := rfl

theorem joinCh_flat (sep : Char) :
    ∀ (more : List (List Char)) (x : List Char),
      joinCh sep (x :: more) = x ++ more.flatMap (fun part => sep :: part) := by
  intro more
  induction more with
  | nil => intro x; simp [joinCh]
  | cons y more' ih =>
    intro x
    rw [joinCh_cons₂, ih y]
    simp

theorem joinCh_concat (sep : Char) :
    ∀ (X : List (List Char)) (y z : List Char),
      joinCh sep (X ++ [y ++ z]) = joinCh sep (X ++ [y]) ++ z := by
  intro X
  induction X with
  | nil => intro y z; rfl
  | cons x X' ih =>
    intro y z
    cases X' with
    | nil => simp [joinCh]
    | cons x2 X'' =>
      simp only [List.cons_append] at ih ⊢
      rw [joinCh_cons₂, joinCh_cons₂, ih y z]
      simp

theorem joinCh_prefix (sep : Char) :
    ∀ (parts : List (List Char)) (pc rest : List Char),
      (∀ x ∈ parts, sep ∉ x) → parts ≠ [] →
      joinCh sep parts = pc ++ rest →
      ∃ k q, k < parts.length ∧ q ≤ (parts.getD k []).length ∧
        splitCh sep pc = parts.take k ++ [(parts.getD k []).take q] ∧
        rest = (parts.getD k []).drop q ++ (parts.drop (k + 1)).flatMap (fun part => sep :: part) := by
  intro parts
  induction parts with
  | nil => intro pc rest _ hne _; exact absurd rfl hne
  | cons p parts' ih =>
    intro pc rest hsep _ heq
    cases parts' with
    | nil =>
      rw [show joinCh sep [p] = p from rfl] at heq
      have hlen : pc.length ≤ p.length := by
        rw [heq]
        simp
      refine ⟨0, pc.length, by simp, by simpa using hlen, ?_, ?_⟩
      · rw [splitCh_singleton sep pc
          (fun hmem => hsep p (by simp) (by rw [heq]; exact List.mem_append_left _ hmem))]
        simp only [List.take_zero, List.getD_cons_zero, List.nil_append]
        rw [heq, List.take_append_of_le_length (le_refl pc.length), List.take_length]
      · simp only [List.getD_cons_zero, List.drop_succ_cons, List.drop_nil,
          List.flatMap_nil, List.append_nil]
        rw [heq, List.drop_left]
    | cons p2 parts'' =>
      rw [joinCh_cons₂] at heq
      rcases le_or_lt pc.length p.length with hle | hlt
      · have hpc : pc = p.take pc.length := by
          have h1 := List.take_left pc rest
          rw [← heq, List.take_append_of_le_length hle] at h1
          exact h1.symm
        have hrest2 : rest = p.drop pc.length ++ sep :: joinCh sep (p2 :: parts'') := by
          have h1 := List.drop_left pc rest
          rw [← heq, List.drop_append_of_le_length hle] at h1
          exact h1.symm
        refine ⟨0, pc.length, by simp, by simpa using hle, ?_, ?_⟩
        · rw [splitCh_singleton sep pc
            (fun hmem => hsep p (by simp) (by rw [hpc] at hmem; exact List.mem_of_mem_take hmem))]
          simp only [List.take_zero, List.getD_cons_zero, List.nil_append, ← hpc]
        · rw [hrest2]
          simp only [List.getD_cons_zero, List.drop_succ_cons, List.drop_zero]
          rw [joinCh_flat]
          simp
      · have hp : p = pc.take p.length := by
          have h1 := List.take_left p (sep :: joinCh sep (p2 :: parts''))
          rw [heq, List.take_append_of_le_length (le_of_lt hlt)] at h1
          exact h1.symm
        have h2 : sep :: joinCh sep (p2 :: parts'') = pc.drop p.length ++ rest := by
          have h1 := List.drop_left p (sep :: joinCh sep (p2 :: parts''))
          rw [heq, List.drop_append_of_le_length (le_of_lt hlt)] at h1
          exact h1.symm
        obtain ⟨c0, pc'', hpc''⟩ : ∃ c0 pc'', pc.drop p.length = c0 :: pc'' := by
          rcases hd : pc.drop p.length with _ | ⟨c0, pc''⟩
          · have : (pc.drop p.length).length = pc.length - p.length := List.length_drop _ _
            rw [hd] at this
            simp at this
            omega
          · exact ⟨c0, pc'', rfl⟩
        rw [hpc''] at h2
        have hc0 : c0 = sep := by
          injection h2 with hh _
          exact hh.symm
        have hJ : joinCh sep (p2 :: parts'') = pc'' ++ rest := by
          injection h2 with _ hh
        obtain ⟨k', q', hk', hq', hsplit', hrest'⟩ :=
          ih pc'' rest (fun x hx => hsep x (List.mem_cons_of_mem _ hx)) (by simp) hJ
        have hpceq : pc = p ++ sep :: pc'' := by
          conv_lhs => rw [← List.take_append_drop p.length pc]
          rw [← hp, hpc'', hc0]
        refine ⟨k' + 1, q', by simpa using Nat.succ_lt_succ hk', ?_, ?_, ?_⟩
        · simpa [List.getD_cons_succ] using hq'
        · rw [hpceq, splitCh_append sep p _ (hsep p (by simp)), hsplit']
          simp [List.getD_cons_succ]
        · simpa [List.getD_cons_succ, List.drop_succ_cons] using hrest'

/-! ### Sub-chunks produced by the oversize splitter -/

theorem mem_jsTrimList (cs : List Char) : ∀ c ∈ jsTrimList cs, c ∈ cs := by
  intro c hc
  unfold jsTrimList at hc
  rw [List.mem_reverse] at hc
  have h1 : c ∈ (cs.dropWhile jsWhitespace).reverse :=
    (List.dropWhile_sublist jsWhitespace).subset hc
  rw [List.mem_reverse] at h1
  exact (List.dropWhile_sublist jsWhitespace).subset h1

theorem jsSplitNl_no_nl (s : String) (hs : '\n' ∉ s.toList) : jsSplitNl s = [s] := by
  unfold jsSplitNl
  rw [splitCh_singleton '\n' s.toList hs]
  rfl

theorem slice_drop_take (ls : List String) (k n a : Nat) :
    ((ls.drop k).take n).drop a = (ls.drop (k + a)).take (n - a) := by
  rw [List.drop_take, List.drop_drop]

theorem sub_chunk_slice (ls : List String) (s0 e0 a b : Nat)
    (h1 : 1 ≤ s0) (h2 : s0 ≤ e0) (h3 : e0 ≤ ls.length)
    (hab : a ≤ b) (hb : b ≤ e0 - s0) :
    jsJoinNl ((((ls.drop (s0 - 1)).take (e0 + 1 - s0)).drop a).take (b + 1 - a)) =
      sliceText ls (s0 + a) (s0 + b) := by
  rw [slice_drop_take, List.take_take,
    min_eq_left (show b + 1 - a ≤ e0 + 1 - s0 - a by omega)]
  unfold sliceText
  rw [show s0 - 1 + a = s0 + a - 1 from by omega,
    show b + 1 - a = s0 + b + 1 - (s0 + a) from by omega]

/-- A chunk that covers lines `a..b` (0-based) of the line list `tl`, with
1-based line numbers offset by `s0`. -/
def SubChunkOf (tl : List String) (s0 : Nat) (c : MemoryChunk) : Prop :=
  ∃ a b, a ≤ b ∧ b < tl.length ∧ c.startLine = s0 + a ∧ c.endLine = s0 + b ∧
    c.text = jsJoinNl ((tl.drop a).take (b + 1 - a))

theorem soLoop_nil_nil (h : String → String) (maxChars s0 i bufStart bufChars : Nat)
    (out : List MemoryChunk) :
    soLoop h maxChars s0 [] i [] bufStart bufChars out = out := rfl

theorem soLoop_nil_cons (h : String → String) (maxChars s0 i bufStart bufChars : Nat)
    (l0 : String) (buf : List String) (out : List MemoryChunk) :
    soLoop h maxChars s0 [] i (l0 :: buf) bufStart bufChars out =
      out ++ [⟨bufStart, bufStart + (l0 :: buf).length - 1, jsJoinNl (l0 :: buf),
        h (jsJoinNl (l0 :: buf))⟩] := rfl

theorem soLoop_cons (h : String → String) (maxChars s0 : Nat) (line : String)
    (rest : List String) (i : Nat) (buf : List String) (bufStart bufChars : Nat)
    (out : List MemoryChunk) :
    soLoop h maxChars s0 (line :: rest) i buf bufStart bufChars out =
      if maxChars < bufChars + line.length + 1 ∧ buf ≠ [] then
        soLoop h maxChars s0 rest (i + 1) [line] (s0 + i) (line.length + 1)
          (out ++ [⟨bufStart, bufStart + buf.length - 1, jsJoinNl buf,
            h (jsJoinNl buf)⟩])
      else
        soLoop h maxChars s0 rest (i + 1) (buf ++ [line]) bufStart
          (bufChars + line.length + 1) out := rfl

theorem soLoop_sub (h : String → String) (maxChars s0 : Nat) (tl : List String) :
    ∀ (rem : List String) (i : Nat), rem = tl.drop i → i ≤ tl.length →
      ∀ (a : Nat) (buf : List String) (bufStart bufChars : Nat)
        (out : List MemoryChunk),
        a ≤ i → buf = (tl.drop a).take (i - a) → bufStart = s0 + a →
        ∀ c ∈ soLoop h maxChars s0 rem i buf bufStart bufChars out,
          c ∈ out ∨ SubChunkOf tl s0 c := by
  intro rem
  induction rem with
  | nil =>
    intro i hrem hi a buf bufStart bufChars out ha hbuf hbs c hc
    have hieq : i = tl.length := by
      have hlen := List.length_drop i tl
      rw [← hrem] at hlen
      simp at hlen
      omega
    rcases buf with _ | ⟨l0, buf1⟩
    · rw [soLoop_nil_nil] at hc
      exact Or.inl hc
    · rw [soLoop_nil_cons] at hc
      rcases List.mem_append.mp hc with hc | hc
      · exact Or.inl hc
      · rcases List.mem_singleton.mp hc with rfl
        have hlb : (l0 :: buf1).length = i - a := by
          rw [hbuf]
          simp only [List.length_take, List.length_drop]
          omega
        have hai : a < i := by
          have hpos : 0 < (l0 :: buf1).length := by simp
          omega
        refine Or.inr ⟨a, i - 1, by omega, by omega, hbs, ?_, ?_⟩
        · show bufStart + (l0 :: buf1).length - 1 = s0 + (i - 1)
          rw [hlb, hbs]
          omega
        · show jsJoinNl (l0 :: buf1) = jsJoinNl ((tl.drop a).take (i - 1 + 1 - a))
          rw [show i - 1 + 1 - a = i - a from by omega, ← hbuf]
  | cons line rest ih =>
    intro i hrem hi a buf bufStart bufChars out ha hbuf hbs c hc
    have hi2 : i < tl.length := by
      have hlen := List.length_drop i tl
      rw [← hrem] at hlen
      simp at hlen
      omega
    have hdrop : tl.drop i = tl[i] :: tl.drop (i + 1) := List.drop_eq_getElem_cons hi2
    have hcons : line :: rest = tl[i] :: tl.drop (i + 1) := by rw [hrem, hdrop]
    have hline : line = tl[i] := by
      injection hcons with h1 _
    have hrest : rest = tl.drop (i + 1) := by
      injection hcons with _ h2
    rw [soLoop_cons] at hc
    split at hc
    · next hcond =>
      have hsing : [line] = (tl.drop i).take (i + 1 - i) := by
        rw [show i + 1 - i = 1 from by omega, hdrop, hline]
        rfl
      rcases ih (i + 1) hrest (by omega) i [line] (s0 + i) (line.length + 1) _
          (by omega) hsing rfl c hc with hc2 | hc2
      · rcases List.mem_append.mp hc2 with hc2 | hc2
        · exact Or.inl hc2
        · rcases List.mem_singleton.mp hc2 with rfl
          have hbne : buf ≠ [] := hcond.2
          have hlb : buf.length = i - a := by
            rw [hbuf]
            simp only [List.length_take, List.length_drop]
            omega
          have hai : a < i := by
            have hpos : 0 < buf.length := List.length_pos.mpr hbne
            omega
          refine Or.inr ⟨a, i - 1, by omega, by omega, hbs, ?_, ?_⟩
          · show bufStart + buf.length - 1 = s0 + (i - 1)
            rw [hlb, hbs]
            omega
          · show jsJoinNl buf = jsJoinNl ((tl.drop a).take (i - 1 + 1 - a))
            rw [show i - 1 + 1 - a = i - a from by omega, ← hbuf]
      · exact Or.inr hc2
    · next hcond =>
      have hext : buf ++ [line] = (tl.drop a).take (i + 1 - a) := by
        rw [show i + 1 - a = (i - a) + 1 from by omega, List.take_succ, hbuf]
        congr 1
        rw [List.getElem?_drop, show a + (i - a) = i from by omega,
          List.getElem?_eq_getElem hi2, hline]
        rfl
      exact ih (i + 1) hrest (by omega) a (buf ++ [line]) bufStart
        (bufChars + line.length + 1) out (by omega) hext hbs c hc

theorem subChunk_exact (ls : List String) (s0 e0 : Nat)
    (h1 : 1 ≤ s0) (h2 : s0 ≤ e0) (h3 : e0 ≤ ls.length) (c : MemoryChunk)
    (hsub : SubChunkOf ((ls.drop (s0 - 1)).take (e0 + 1 - s0)) s0 c) :
    chunkExact ls c := by
  obtain ⟨a, b, hab, hbl, hsl, hel, htx⟩ := hsub
  have hplen : ((ls.drop (s0 - 1)).take (e0 + 1 - s0)).length = e0 + 1 - s0 := by
    simp only [List.length_take, List.length_drop]
    omega
  rw [hplen] at hbl
  refine ⟨?_, ?_, ?_, ?_⟩
  · rw [hsl]; omega
  · rw [hsl, hel]; omega
  · rw [hel]; omega
  · rw [htx, hsl, hel]
    exact sub_chunk_slice ls s0 e0 a b h1 h2 h3 hab (by omega)

theorem getD_map_toList (l : List String) (k : Nat) (hk : k < l.length) :
    (l.map String.toList).getD k [] = (l.getD k "").toList := by
  rw [List.getD_eq_getElem (l.map String.toList) [] (by simpa using hk),
    List.getD_eq_getElem l "" hk, List.getElem_map]

theorem sub_okM_strip_core (ls : List String) (s0 e0 : Nat)
    (h1 : 1 ≤ s0) (h2 : s0 ≤ e0) (h3 : e0 ≤ ls.length) (hN : NoNl ls)
    (pc w : List Char)
    (hdec : joinCh '\n' (((ls.drop (s0 - 1)).take (e0 + 1 - s0)).map String.toList)
      = pc ++ ',' :: w)
    (hw : ∀ x ∈ w, jsWhitespace x)
    (c : MemoryChunk)
    (hsub : SubChunkOf ((splitCh '\n' pc).map String.mk) s0 c) :
    ChunkOkM ls c := by
  have hplen : ((ls.drop (s0 - 1)).take (e0 + 1 - s0)).length = e0 + 1 - s0 := by
    simp only [List.length_take, List.length_drop]
    omega
  have hpne : (ls.drop (s0 - 1)).take (e0 + 1 - s0) ≠ [] := by
    intro h0
    rw [h0] at hplen
    simp at hplen
    omega
  have hpN : ∀ x ∈ (ls.drop (s0 - 1)).take (e0 + 1 - s0), '\n' ∉ x.toList := by
    intro x hx
    exact hN x (List.mem_of_mem_drop (List.mem_of_mem_take hx))
  obtain ⟨k, q, hk, hq, hsplit, hrest⟩ := joinCh_prefix '\n'
    (((ls.drop (s0 - 1)).take (e0 + 1 - s0)).map String.toList) pc (',' :: w)
    (by
      intro x hx
      rw [List.mem_map] at hx
      obtain ⟨y, hy, rfl⟩ := hx
      exact hpN y hy)
    (by simpa using hpne) hdec
  rw [List.length_map] at hk
  have hkb : k ≤ e0 - s0 := by
    rw [hplen] at hk
    omega
  have hid : (String.mk ∘ String.toList) = id := funext fun s => rfl
  have hgd := getD_map_toList ((ls.drop (s0 - 1)).take (e0 + 1 - s0)) k (by omega)
  have htl : (splitCh '\n' pc).map String.mk
      = ((ls.drop (s0 - 1)).take (e0 + 1 - s0)).take k ++
        [String.mk ((((ls.drop (s0 - 1)).take (e0 + 1 - s0)).getD k "").toList.take q)] := by
    rw [hsplit, List.map_append, ← List.map_take, List.map_map, hid, List.map_id,
      List.map_singleton, hgd]
  rw [htl] at hsub
  obtain ⟨a, b, hab, hbl, hsl, hel, htx⟩ := hsub
  have htklen : (((ls.drop (s0 - 1)).take (e0 + 1 - s0)).take k).length = k := by
    rw [List.length_take]
    omega
  have hbk : b ≤ k := by
    rw [List.length_append, htklen] at hbl
    simp at hbl
    omega
  have hdr : ((((ls.drop (s0 - 1)).take (e0 + 1 - s0)).take k ++
        [String.mk ((((ls.drop (s0 - 1)).take (e0 + 1 - s0)).getD k "").toList.take q)]).drop a)
      = (((ls.drop (s0 - 1)).take (e0 + 1 - s0)).take k).drop a ++
        [String.mk ((((ls.drop (s0 - 1)).take (e0 + 1 - s0)).getD k "").toList.take q)] :=
    List.drop_append_of_le_length (by rw [htklen]; omega)
  rcases Nat.lt_or_ge b k with hblt | hbge
  · -- the sub-chunk stays inside the full lines: it is an exact slice
    refine chunkExact.okM (subChunk_exact ls s0 e0 h1 h2 h3 c ⟨a, b, hab, ?_, hsl, hel, ?_⟩)
    · rw [hplen]
      omega
    · rw [htx, hdr, List.take_append_of_le_length
        (by rw [List.length_drop, htklen]; omega), List.drop_take, List.take_take,
        min_eq_left (by omega)]
  · -- the sub-chunk ends on the cut line: its text is the comma-stripped slice
    have hbke : b = k := by omega
    subst hbke
    have hblen : b < ((ls.drop (s0 - 1)).take (e0 + 1 - s0)).length := by
      rw [hplen]
      omega
    -- the cut line decomposes as the kept prefix, the comma and trailing whitespace
    rw [hgd] at hrest
    rcases hLd : (((ls.drop (s0 - 1)).take (e0 + 1 - s0)).getD b "").toList.drop q
      with _ | ⟨c1, w1⟩
    · exfalso
      rw [hLd, List.nil_append] at hrest
      rcases hdk : (((ls.drop (s0 - 1)).take (e0 + 1 - s0)).map String.toList).drop (b + 1)
        with _ | ⟨x, xs⟩
      · rw [hdk] at hrest
        simp at hrest
      · rw [hdk, List.flatMap_cons, List.cons_append] at hrest
        injection hrest with hh _
        exact absurd hh (by decide)
    · rw [hLd, List.cons_append] at hrest
      have hc1 : ',' = c1 := by
        injection hrest with hh _
      have hwsplit : w = w1 ++
          ((((ls.drop (s0 - 1)).take (e0 + 1 - s0)).map String.toList).drop (b + 1)).flatMap
            (fun part => '\n' :: part) := by
        injection hrest with _ hh
      have hw1 : ∀ x ∈ w1, jsWhitespace x := by
        intro x hx
        exact hw x (by rw [hwsplit]; exact List.mem_append_left _ hx)
      have hLk : (((ls.drop (s0 - 1)).take (e0 + 1 - s0)).getD b "").toList
          = (((ls.drop (s0 - 1)).take (e0 + 1 - s0)).getD b "").toList.take q ++
            ',' :: w1 := by
        conv_lhs => rw [← List.take_append_drop q
          ((((ls.drop (s0 - 1)).take (e0 + 1 - s0)).getD b "").toList)]
        rw [hLd, ← hc1]
      -- the chunk text: full lines a..b-1 plus the kept prefix of line b
      have htx2 : c.text = jsJoinNl ((((ls.drop (s0 - 1)).take (e0 + 1 - s0)).take b).drop a ++
          [String.mk ((((ls.drop (s0 - 1)).take (e0 + 1 - s0)).getD b "").toList.take q)]) := by
        rw [htx, hdr, List.take_of_length_le
          (by
            rw [List.length_append, List.length_drop, htklen]
            simp only [List.length_cons, List.length_nil]
            omega)]
      -- the exact slice of lines a..b of the file ends with the whole line b
      have hsl2 : ((((ls.drop (s0 - 1)).take (e0 + 1 - s0)).drop a)).take (b + 1 - a)
          = (((ls.drop (s0 - 1)).take (e0 + 1 - s0)).take b).drop a ++
            [((ls.drop (s0 - 1)).take (e0 + 1 - s0)).getD b ""] := by
        rw [show b + 1 - a = (b - a) + 1 from by omega, List.take_succ, List.getElem?_drop,
          show a + (b - a) = b from by omega, List.getElem?_eq_getElem hblen,
          ← List.drop_take, List.getD_eq_getElem _ "" hblen]
        rfl
      have hslice : sliceText ls (s0 + a) (s0 + b)
          = jsJoinNl ((((ls.drop (s0 - 1)).take (e0 + 1 - s0)).take b).drop a ++
            [((ls.drop (s0 - 1)).take (e0 + 1 - s0)).getD b ""]) := by
        rw [← sub_chunk_slice ls s0 e0 a b h1 h2 h3 hab (by omega), hsl2]
      -- hence stripping the trailing comma from the slice gives the chunk text
      have hfin : sliceText ls (s0 + a) (s0 + b) = String.mk (c.text.toList ++ ',' :: w1) := by
        rw [← mk_toList (sliceText ls (s0 + a) (s0 + b))]
        congr 1
        show (sliceText ls (s0 + a) (s0 + b)).toList = _
        rw [hslice]
        show joinCh '\n' (((((ls.drop (s0 - 1)).take (e0 + 1 - s0)).take b).drop a ++
          [((ls.drop (s0 - 1)).take (e0 + 1 - s0)).getD b ""]).map String.toList) = _
        rw [List.map_append, List.map_singleton, hLk, joinCh_concat]
        congr 1
        rw [htx2]
        show _ = joinCh '\n' (((((ls.drop (s0 - 1)).take (e0 + 1 - s0)).take b).drop a ++
          [String.mk ((((ls.drop (s0 - 1)).take (e0 + 1 - s0)).getD b "").toList.take q)]).map
            String.toList)
        rw [List.map_append, List.map_singleton, toList_mk]
        rfl
      refine ⟨?_, ?_, ?_, Or.inr (Or.inl ?_)⟩
      · rw [hsl]; omega
      · rw [hsl, hel]; omega
      · rw [hel]; omega
      · rw [hsl, hel, hfin, strip_of_decomp _ _ hw1, mk_toList]

theorem sub_okM (ls : List String) (hN : NoNl ls) (c0 : MemoryChunk)
    (h0 : ChunkOkM ls c0) :
    ∀ c, SubChunkOf (jsSplitNl c0.text) c0.startLine c → ChunkOkM ls c := by
  obtain ⟨h1, h2, h3, htext⟩ := h0
  have hplen : ((ls.drop (c0.startLine - 1)).take (c0.endLine + 1 - c0.startLine)).length
      = c0.endLine + 1 - c0.startLine := by
    simp only [List.length_take, List.length_drop]
    omega
  have hpne : (ls.drop (c0.startLine - 1)).take (c0.endLine + 1 - c0.startLine) ≠ [] := by
    intro h0x
    rw [h0x] at hplen
    simp at hplen
    omega
  have hpN : NoNl ((ls.drop (c0.startLine - 1)).take (c0.endLine + 1 - c0.startLine)) := by
    intro x hx
    exact hN x (List.mem_of_mem_drop (List.mem_of_mem_take hx))
  rcases htext with htext | htext | htext
  · -- exact slice: every sub-chunk is itself an exact slice
    intro c hsub
    have htl : jsSplitNl c0.text
        = (ls.drop (c0.startLine - 1)).take (c0.endLine + 1 - c0.startLine) := by
      rw [htext]
      unfold sliceText
      exact jsSplitNl_jsJoinNl _ hpne hpN
    rw [htl] at hsub
    exact chunkExact.okM (subChunk_exact ls c0.startLine c0.endLine h1 h2 h3 c hsub)
  · -- comma-stripped slice
    intro c hsub
    rcases strip_eq_or_decomp (sliceText ls c0.startLine c0.endLine) with heq |
      ⟨pc, w, hdec, hw, hstl⟩
    · rw [heq] at htext
      have htl : jsSplitNl c0.text
          = (ls.drop (c0.startLine - 1)).take (c0.endLine + 1 - c0.startLine) := by
        rw [htext]
        unfold sliceText
        exact jsSplitNl_jsJoinNl _ hpne hpN
      rw [htl] at hsub
      exact chunkExact.okM (subChunk_exact ls c0.startLine c0.endLine h1 h2 h3 c hsub)
    · have hctext : c0.text.toList = pc := by
        rw [htext]
        exact hstl
      have htl : jsSplitNl c0.text = (splitCh '\n' pc).map String.mk := by
        unfold jsSplitNl
        rw [hctext]
      rw [htl] at hsub
      exact sub_okM_strip_core ls c0.startLine c0.endLine h1 h2 h3 hN pc w hdec hw c hsub
  · -- trimmed single line
    obtain ⟨hse, htxt⟩ := htext
    intro c hsub
    have hslice : sliceText ls c0.startLine c0.startLine = ls.getD (c0.startLine - 1) "" := by
      have hx := sliceText_single ls (c0.startLine - 1) (by omega)
      rw [show c0.startLine - 1 + 1 = c0.startLine from by omega] at hx
      exact hx
    rw [← hse, hslice] at htxt
    have hmem : ls.getD (c0.startLine - 1) "" ∈ ls := by
      rw [List.getD_eq_getElem ls "" (by omega)]
      exact List.getElem_mem _
    have hnl : '\n' ∉ c0.text.toList := by
      rw [htxt]
      intro hin
      exact hN _ hmem (mem_jsTrimList _ _ hin)
    have htl : jsSplitNl c0.text = [c0.text] := jsSplitNl_no_nl _ hnl
    rw [htl] at hsub
    obtain ⟨a, b, hab, hbl, hsl2, hel2, htx2⟩ := hsub
    simp only [List.length_cons, List.length_nil] at hbl
    have ha0 : a = 0 := by omega
    have hb0 : b = 0 := by omega
    subst ha0
    subst hb0
    rw [Nat.add_zero] at hsl2 hel2
    have hct : c.text = c0.text := by
      rw [htx2]
      rfl
    refine ⟨?_, ?_, ?_, Or.inr (Or.inr ⟨?_, ?_⟩)⟩
    · rw [hsl2]; omega
    · rw [hsl2, hel2]
    · rw [hel2]; omega
    · rw [hsl2, hel2]
    · rw [hct, hsl2, hel2, hslice]
      exact htxt

theorem splitOversized_okM (h : String → String) (maxChars : Nat) (ls : List String)
    (hN : NoNl ls) :
    ∀ (chunks init : List MemoryChunk), (∀ c ∈ chunks, ChunkOkM ls c) →
      (∀ c ∈ init, ChunkOkM ls c) →
      ∀ c ∈ chunks.foldl
          (fun result c =>
            if c.text.length ≤ maxChars then result ++ [c]
            else soLoop h maxChars c.startLine (jsSplitNl c.text) 0 [] c.startLine 0 result)
          init,
        ChunkOkM ls c := by
  intro chunks
  induction chunks with
  | nil => intro init _ hinit c hc; exact hinit c hc
  | cons c0 rest ih =>
    intro init hok hinit c hc
    rw [List.foldl_cons] at hc
    refine ih _ (fun x hx => hok x (List.mem_cons_of_mem _ hx)) ?_ c hc
    intro x hx
    by_cases hlen : c0.text.length ≤ maxChars
    · rw [if_pos hlen] at hx
      rcases List.mem_append.mp hx with hx | hx
      · exact hinit x hx
      · rcases List.mem_singleton.mp hx with rfl
        exact hok _ (by simp)
    · rw [if_neg hlen] at hx
      rcases soLoop_sub h maxChars c0.startLine (jsSplitNl c0.text) (jsSplitNl c0.text) 0
          (List.drop_zero _).symm (by omega) 0 [] c0.startLine 0 init (le_refl 0)
          (by simp) (by omega) x hx with hx2 | hx2
      · exact hinit x hx2
      · exact sub_okM ls hN c0 (hok c0 (by simp)) x hx2

theorem chunkJsonl_okM (h : String → String) (content : String) :
    ∀ c ∈ chunkJsonl h content, ChunkOkM (jsSplitNl content) c := by
  intro c hc
  unfold chunkJsonl at hc
  exact jsonlLoop_okM h (jsSplitNl content) (jsSplitNl content) 0 (List.drop_zero _).symm c hc

theorem chunkYaml_okM (h : String → String) (content : String) :
    ∀ c ∈ chunkYaml h content, chunkExact (jsSplitNl content) c := by
  intro c hc
  simp only [chunkYaml] at hc
  rw [if_neg (jsSplitNl_ne_nil content)] at hc
  by_cases hdoc : 2 ≤ (findIdxs isDocSep (jsSplitNl content)).length
  · rw [if_pos hdoc] at hc
    exact yamlDocSpans_exact h (jsSplitNl content) _ (findIdxsAux_pairwise _ _ _)
      (fun x hx => by simpa using (findIdxsAux_mem isDocSep (jsSplitNl content) 0 x hx).2) c hc
  · rw [if_neg hdoc] at hc
    by_cases hkey : (findIdxs isYamlKey (jsSplitNl content)).length ≤ 1
    · rw [if_pos hkey] at hc
      exact singleChunk_exact h content c hc
    · rw [if_neg hkey] at hc
      by_cases hcs : yamlSpans h (jsSplitNl content) (findIdxs isYamlKey (jsSplitNl content)) = []
      · rw [if_pos hcs] at hc
        exact singleChunk_exact h content c hc
      · rw [if_neg hcs] at hc
        exact yamlSpans_exact h (jsSplitNl content) _ (findIdxsAux_pairwise _ _ _)
          (fun x hx => by simpa using (findIdxsAux_mem isYamlKey (jsSplitNl content) 0 x hx).2)
          c hc

theorem chunkJson_okM (h : String → String) (parse : String → Option JsonF)
    (content : String) : ∀ c ∈ chunkJson h parse content, ChunkOkM (jsSplitNl content) c := by
  intro c hc
  simp only [chunkJson] at hc
  cases hp : parse content with
  | none =>
    rw [hp] at hc
    exact chunkExact.okM (singleChunk_exact h content c hc)
  | some f =>
    rw [hp] at hc
    cases f with
    | scalar => exact chunkExact.okM (singleChunk_exact h content c hc)
    | arr n =>
      have hc2 : c ∈ chunkJsonArray h n (jsSplitNl content) content := hc
      simp only [chunkJsonArray] at hc2
      by_cases hn : n ≤ 1
      · rw [if_pos hn] at hc2
        exact chunkExact.okM (singleChunk_exact h content c hc2)
      · rw [if_neg hn] at hc2
        by_cases hcs : jsonArrLoop h (jsSplitNl content) (jsSplitNl content) 0 (0, none, []) = []
        · rw [if_pos hcs] at hc2
          exact chunkExact.okM (singleChunk_exact h content c hc2)
        · rw [if_neg hcs] at hc2
          exact jsonArrLoop_okM h (jsSplitNl content) (jsSplitNl content) 0 (0, none, [])
            (List.drop_zero _).symm (fun j hj => by simp at hj) (fun x hx => by simp at hx)
            c hc2
    | obj keys =>
      have hc2 : c ∈
          (if keys = [] then singleChunk h content (jsSplitNl content)
           else
             if scanKeysAux (jsSplitNl content) 0 0 keys = [] then
               singleChunk h content (jsSplitNl content)
             else
               if jsonKeySpans h (jsSplitNl content)
                   ((scanKeysAux (jsSplitNl content) 0 0 keys).mergeSort
                     (fun a b => decide (a.2 ≤ b.2))) = [] then
                 singleChunk h content (jsSplitNl content)
               else
                 jsonKeySpans h (jsSplitNl content)
                   ((scanKeysAux (jsSplitNl content) 0 0 keys).mergeSort
                     (fun a b => decide (a.2 ≤ b.2)))) := hc
      by_cases hk0 : keys = []
      · rw [if_pos hk0] at hc2
        exact chunkExact.okM (singleChunk_exact h content c hc2)
      · rw [if_neg hk0] at hc2
        by_cases hk1 : scanKeysAux (jsSplitNl content) 0 0 keys = []
        · rw [if_pos hk1] at hc2
          exact chunkExact.okM (singleChunk_exact h content c hc2)
        · rw [if_neg hk1] at hc2
          have hpw : (scanKeysAux (jsSplitNl content) 0 0 keys).Pairwise
              (fun a b => a.2 < b.2) := scanKeysAux_pairwise _ _ _ _
          have hsorted : (scanKeysAux (jsSplitNl content) 0 0 keys).mergeSort
              (fun a b => decide (a.2 ≤ b.2)) = scanKeysAux (jsSplitNl content) 0 0 keys :=
            List.mergeSort_of_sorted (hpw.imp (fun hlt => by simp; omega))
          rw [hsorted] at hc2
          by_cases hk2 : jsonKeySpans h (jsSplitNl content)
              (scanKeysAux (jsSplitNl content) 0 0 keys) = []
          · rw [if_pos hk2] at hc2
            exact chunkExact.okM (singleChunk_exact h content c hc2)
          · rw [if_neg hk2] at hc2
            exact jsonKeySpans_okM h (jsSplitNl content) _ hpw
              (fun x hx => by
                have := scanKeysAux_mem (jsSplitNl content) 0 0 keys x hx
                simpa using this.2)
              c hc2

theorem chunkFile_okM (h : String → String) (parse : String → Option JsonF)
    (content filePath : String) (chunkSize : Option Nat) :
    ∀ c ∈ chunkFile h parse content filePath chunkSize, ChunkOkM (jsSplitNl content) c := by
  intro c hc
  simp only [chunkFile] at hc
  have hN : NoNl (jsSplitNl content) := noNl_jsSplitNl content
  by_cases hjson : extOf filePath = ".json"
  · rw [if_pos hjson] at hc
    exact splitOversized_okM h (chunkSize.getD 512 * 4) (jsSplitNl content) hN
      (chunkJson h parse content) [] (chunkJson_okM h parse content) (by simp) c hc
  · rw [if_neg hjson] at hc
    by_cases hjsonl : extOf filePath = ".jsonl"
    · rw [if_pos hjsonl] at hc
      exact splitOversized_okM h (chunkSize.getD 512 * 4) (jsSplitNl content) hN
        (chunkJsonl h content) [] (chunkJsonl_okM h content) (by simp) c hc
    · rw [if_neg hjsonl] at hc
      by_cases hyaml : extOf filePath = ".yaml" ∨ extOf filePath = ".yml"
      · rw [if_pos hyaml] at hc
        exact splitOversized_okM h (chunkSize.getD 512 * 4) (jsSplitNl content) hN
          (chunkYaml h content) [] (fun x hx => chunkExact.okM (chunkYaml_okM h content x hx))
          (by simp) c hc
      · rw [if_neg hyaml] at hc
        exact chunkExact.okM (chunkMarkdown_exact h content _ c hc)


/-! ## C6: chunk ranges and chunk text -/

/-- C6 counterexample: the spec says every strategy emits the exact slice of
the file's lines, but the JSONL strategy trims each line — chunking the file
" x" as `a.jsonl` yields the chunk text "x", not the exact slice " x". -/
theorem c6_chunk_text_exact_cex :
    ∃ c ∈ chunkFile (fun s => s) (fun _ => none) " x" "a.jsonl" none,
      c.text ≠ sliceText (jsSplitNl " x") c.startLine c.endLine := by
  refine ⟨⟨1, 1, "x", "x"⟩, ?_, ?_⟩
  · rw [show chunkFile (fun s => s) (fun _ => none) " x" "a.jsonl" none
        = [⟨1, 1, "x", "x"⟩] from rfl]
    exact List.mem_singleton.mpr rfl
  · decide

/-- C6 (amended). Every chunk the Chunker produces from a file spans a
contiguous non-empty 1-based line range of the file; its text is the exact
newline-joined slice of those lines, except that the JSON strategies may
strip one trailing comma (with trailing whitespace) and the JSONL strategy
trims its single line. The markdown/text and YAML strategies (the latter
before oversize splitting) always produce the exact slice. -/
theorem c6_chunk_ranges_and_text :
    (∀ (h : String → String) (parse : String → Option JsonF)
        (content filePath : String) (chunkSize : Option Nat),
        ∀ c ∈ chunkFile h parse content filePath chunkSize,
          ChunkOkM (jsSplitNl content) c)
    ∧ (∀ (h : String → String) (content : String) (opts : MdOpts),
        ∀ c ∈ chunkMarkdown h content opts, chunkExact (jsSplitNl content) c)
    ∧ (∀ (h : String → String) (content : String),
        ∀ c ∈ chunkYaml h content, chunkExact (jsSplitNl content) c) :=
  ⟨chunkFile_okM, chunkMarkdown_exact, chunkYaml_okM⟩

/-- Witness for C6 at a concrete markdown file. -/
theorem c6_chunk_ranges_and_text_witness :
    ChunkOkM (jsSplitNl "hello") ⟨1, 1, "hello", "hello"⟩ :=
  c6_chunk_ranges_and_text.1 (fun s => s) (fun _ => none) "hello" "a.txt" none
    ⟨1, 1, "hello", "hello"⟩
    (by
      rw [show chunkFile (fun s => s) (fun _ => none) "hello" "a.txt" none
          = [⟨1, 1, "hello", "hello"⟩] from rfl]
      exact List.mem_singleton.mpr rfl)

/-! ## C1: hybrid fusion (search.ts `normalizeScores` / `mergeHybrid`) -/

/-- `SearchResult` from search.ts, scores as rationals. -/
structure SearchResult where
  path : String
  startLine : Nat
  endLine : Nat
  score : ℚ
  snippet : String
  source : String
deriving DecidableEq, Repr

/-- JS `Math.max(...xs)` on a non-empty list. -/
def listMax : List ℚ → ℚ
  | [] => 0
  | x :: xs => xs.foldl max x

/-- JS `Math.min(...xs)` on a non-empty list. -/
def listMin : List ℚ → ℚ
  | [] => 0
  | x :: xs => xs.foldl min x

/-- `normalizeScores` from search.ts, returning the updated list. -/
def normalizeScores (results : List SearchResult) : List SearchResult :=
  if results.length = 0 then results
  else if results.length = 1 then results.map (fun r => { r with score := 1 })
  else if listMax (results.map (fun r => r.score)) = listMin (results.map (fun r => r.score))
    then results.map (fun r => { r with score := 1 })
  else results.map (fun r => { r with
    score := (r.score - listMin (results.map (fun r => r.score))) /
      (listMax (results.map (fun r => r.score)) - listMin (results.map (fun r => r.score))) })

/-- The JS `Map` key built in `mergeHybrid`. -/
def mergeKey (r : SearchResult) : String :=
  r.path ++ ":" ++ toString r.startLine

/-- An entry of the `byKey` map in `mergeHybrid`. -/
structure MergeEntry where
  ftsScore : ℚ
  vecScore : ℚ
  result : SearchResult
deriving Repr

/-- The first `mergeHybrid` loop: `byKey.set(key, ...)` with JS `Map`
insertion-order semantics (an existing key keeps its position). -/
def insStep (m : List (String × MergeEntry)) (r : SearchResult) :
    List (String × MergeEntry) :=
  if m.any (fun p => decide (p.1 = mergeKey r)) then
    m.map (fun p => if p.1 = mergeKey r then (p.1, ⟨r.score, 0, r⟩) else p)
  else m ++ [(mergeKey r, ⟨r.score, 0, r⟩)]

/-- The second `mergeHybrid` loop: update `vecScore` of an existing entry,
else insert a vector-only entry. -/
def mergeStep (m : List (String × MergeEntry)) (r : SearchResult) :
    List (String × MergeEntry) :=
  if m.any (fun p => decide (p.1 = mergeKey r)) then
    m.map (fun p =>
      if p.1 = mergeKey r then (p.1, { p.2 with vecScore := r.score }) else p)
  else m ++ [(mergeKey r, ⟨0, r.score, r⟩)]

/-- `mergeHybrid` from search.ts: normalize both lists, merge keyed by
`(path, startLine)`, combine with the weights, sort by score descending
(JS `Array.prototype.sort` is stable). -/
def mergeHybrid (ftsResults vecResults : List SearchResult)
    (ftsWeight vecWeight : ℚ) : List SearchResult :=
  ((normalizeScores vecResults).foldl mergeStep
      ((normalizeScores ftsResults).foldl insStep [])).map
    (fun p => { p.2.result with
      score := ftsWeight * p.2.ftsScore + vecWeight * p.2.vecScore })
    |>.mergeSort (fun a b => decide (b.score ≤ a.score))

theorem foldl_max_init : ∀ (xs : List ℚ) (x : ℚ), x ≤ xs.foldl max x := by
  intro xs
  induction xs with
  | nil => intro x; simp
  | cons y ys ih =>
    intro x
    rw [List.foldl_cons]
    exact le_trans (le_max_left x y) (ih (max x y))

theorem foldl_min_init : ∀ (xs : List ℚ) (x : ℚ), xs.foldl min x ≤ x := by
  intro xs
  induction xs with
  | nil => intro x; simp
  | cons y ys ih =>
    intro x
    rw [List.foldl_cons]
    exact le_trans (ih (min x y)) (min_le_left x y)

theorem listMin_le_listMax (xs : List ℚ) (h : xs ≠ []) : listMin xs ≤ listMax xs := by
  cases xs with
  | nil => exact absurd rfl h
  | cons x t =>
    show t.foldl min x ≤ t.foldl max x
    exact le_trans (foldl_min_init t x) (foldl_max_init t x)

theorem foldl_max_const (c : ℚ) : ∀ (xs : List ℚ) (x : ℚ), x = c → (∀ y ∈ xs, y = c) →
    xs.foldl max x = c := by
  intro xs
  induction xs with
  | nil => intro x hx _; simpa using hx
  | cons y ys ih =>
    intro x hx hall
    rw [List.foldl_cons]
    refine ih (max x y) ?_ (fun z hz => hall z (List.mem_cons_of_mem _ hz))
    rw [hx, hall y (by simp)]
    exact max_self c

theorem foldl_min_const (c : ℚ) : ∀ (xs : List ℚ) (x : ℚ), x = c → (∀ y ∈ xs, y = c) →
    xs.foldl min x = c := by
  intro xs
  induction xs with
  | nil => intro x hx _; simpa using hx
  | cons y ys ih =>
    intro x hx hall
    rw [List.foldl_cons]
    refine ih (min x y) ?_ (fun z hz => hall z (List.mem_cons_of_mem _ hz))
    rw [hx, hall y (by simp)]
    exact min_self c

theorem listMax_const (c : ℚ) (l : List ℚ) (hne : l ≠ []) (hall : ∀ y ∈ l, y = c) :
    listMax l = c := by
  cases l with
  | nil => exact absurd rfl hne
  | cons x xs =>
    show xs.foldl max x = c
    exact foldl_max_const c xs x (hall x (by simp)) (fun y hy => hall y (by simp [hy]))

theorem listMin_const (c : ℚ) (l : List ℚ) (hne : l ≠ []) (hall : ∀ y ∈ l, y = c) :
    listMin l = c := by
  cases l with
  | nil => exact absurd rfl hne
  | cons x xs =>
    show xs.foldl min x = c
    exact foldl_min_const c xs x (hall x (by simp)) (fun y hy => hall y (by simp [hy]))

theorem normalizeScores_single (r : SearchResult) :
    normalizeScores [r] = [{ r with score := 1 }] := rfl

theorem normalizeScores_const (rs : List SearchResult) (c : ℚ) (hne : rs ≠ [])
    (hall : ∀ r ∈ rs, r.score = c) :
    normalizeScores rs = rs.map (fun r => { r with score := 1 }) := by
  have hally : ∀ y ∈ rs.map (fun r => r.score), y = c := by
    intro y hy
    rw [List.mem_map] at hy
    obtain ⟨r, hr, rfl⟩ := hy
    exact hall r hr
  have hmne : rs.map (fun r => r.score) ≠ [] := by
    intro h0
    rw [List.map_eq_nil_iff] at h0
    exact hne h0
  unfold normalizeScores
  by_cases h0 : rs.length = 0
  · rw [List.length_eq_zero] at h0
    exact absurd h0 hne
  · rw [if_neg h0]
    by_cases h1 : rs.length = 1
    · rw [if_pos h1]
    · rw [if_neg h1, if_pos]
      rw [listMax_const c _ hmne hally, listMin_const c _ hmne hally]

theorem normalizeScores_map (rs : List SearchResult) :
    ∃ g : ℚ → ℚ, (∀ x y, x ≤ y → g x ≤ g y) ∧
      normalizeScores rs = rs.map (fun r => { r with score := g r.score }) := by
  by_cases h0 : rs.length = 0
  · refine ⟨fun x => x, fun x y hxy => hxy, ?_⟩
    unfold normalizeScores
    rw [if_pos h0]
    rw [List.length_eq_zero] at h0
    rw [h0]
    rfl
  · by_cases h1 : rs.length = 1
    · refine ⟨fun _ => 1, fun _ _ _ => le_refl 1, ?_⟩
      unfold normalizeScores
      rw [if_neg h0, if_pos h1]
    · by_cases heq : listMax (rs.map (fun r => r.score)) = listMin (rs.map (fun r => r.score))
      · refine ⟨fun _ => 1, fun _ _ _ => le_refl 1, ?_⟩
        unfold normalizeScores
        rw [if_neg h0, if_neg h1, if_pos heq]
      · refine ⟨fun x => (x - listMin (rs.map (fun r => r.score))) /
            (listMax (rs.map (fun r => r.score)) - listMin (rs.map (fun r => r.score))),
          ?_, ?_⟩
        · intro x y hxy
          have hmne : rs.map (fun r => r.score) ≠ [] := by
            intro hx
            rw [List.map_eq_nil_iff] at hx
            rw [hx] at h0
            simp at h0
          have hlt : 0 < listMax (rs.map (fun r => r.score)) -
              listMin (rs.map (fun r => r.score)) := by
            have hle := listMin_le_listMax (rs.map (fun r => r.score)) hmne
            have hne2 : listMin (rs.map (fun r => r.score)) ≠
                listMax (rs.map (fun r => r.score)) := fun hx => heq hx.symm
            have hstrict := lt_of_le_of_ne hle hne2
            linarith
          exact (div_le_div_right hlt).mpr (sub_le_sub_right hxy _)
        · unfold normalizeScores
          rw [if_neg h0, if_neg h1, if_neg heq]

theorem pairwise_desc_map (g : ℚ → ℚ) (hg : ∀ x y, x ≤ y → g x ≤ g y)
    (rs : List SearchResult) (h : rs.Pairwise (fun x y => y.score ≤ x.score)) :
    (rs.map (fun r => { r with score := g r.score })).Pairwise
      (fun x y => y.score ≤ x.score) := by
  rw [List.pairwise_map]
  exact h.imp (fun hxy => hg _ _ hxy)

theorem foldl_insStep_fresh : ∀ (rs : List SearchResult) (m : List (String × MergeEntry)),
    (∀ r ∈ rs, ∀ p ∈ m, p.1 ≠ mergeKey r) → (rs.map mergeKey).Nodup →
    rs.foldl insStep m = m ++ rs.map (fun r => (mergeKey r, ⟨r.score, 0, r⟩)) := by
  intro rs
  induction rs with
  | nil => intro m _ _; simp
  | cons r rest ih =>
    intro m hfresh hnodup
    rw [List.foldl_cons]
    have hins : insStep m r = m ++ [(mergeKey r, ⟨r.score, 0, r⟩)] := by
      unfold insStep
      rw [if_neg]
      simp only [List.any_eq_true, decide_eq_true_eq, not_exists, not_and]
      intro p hp
      exact hfresh r (by simp) p hp
    rw [hins]
    rw [List.map_cons] at hnodup
    have hkr : mergeKey r ∉ rest.map mergeKey := (List.nodup_cons.mp hnodup).1
    rw [ih (m ++ [(mergeKey r, (⟨r.score, 0, r⟩ : MergeEntry))])
      (by
        intro r2 hr2 p hp
        rcases List.mem_append.mp hp with hp | hp
        · exact hfresh r2 (List.mem_cons_of_mem _ hr2) p hp
        · rcases List.mem_singleton.mp hp with rfl
          intro hk
          have hk2 : mergeKey r = mergeKey r2 := hk
          refine hkr ?_
          rw [hk2]
          exact List.mem_map_of_mem mergeKey hr2)
      (List.nodup_cons.mp hnodup).2]
    rw [List.map_cons, List.append_assoc, List.singleton_append]

theorem foldl_mergeStep_aligned :
    ∀ (nv : List SearchResult) (done m : List (String × MergeEntry)),
      m.map Prod.fst = nv.map mergeKey →
      ((done ++ m).map Prod.fst).Nodup →
      nv.foldl mergeStep (done ++ m) =
        done ++ List.zipWith (fun p rv => (p.1, { p.2 with vecScore := rv.score })) m nv := by
  intro nv
  induction nv with
  | nil =>
    intro done m hkeysEq _
    rw [List.map_nil, List.map_eq_nil_iff] at hkeysEq
    subst hkeysEq
    simp
  | cons rv nvs ih =>
    intro done m hkeysEq hnodup
    cases m with
    | nil => simp at hkeysEq
    | cons ke m2 =>
      rw [List.map_cons, List.map_cons] at hkeysEq
      have hk : ke.1 = mergeKey rv := by
        injection hkeysEq with h1 _
      have htl : m2.map Prod.fst = nvs.map mergeKey := by
        injection hkeysEq with _ h2
      have hkeys : ((done ++ ke :: m2).map Prod.fst).Nodup := hnodup
      rw [List.map_append, List.map_cons] at hkeys
      have hdone_ne : ∀ p ∈ done, p.1 ≠ ke.1 := by
        intro p hp hpk
        have hmem : ke.1 ∈ List.map Prod.fst done := hpk ▸ List.mem_map_of_mem Prod.fst hp
        exact (List.disjoint_of_nodup_append hkeys) hmem (by simp)
      have hm2_ne : ∀ p ∈ m2, p.1 ≠ ke.1 := by
        intro p hp hpk
        have hked : (ke.1 :: m2.map Prod.fst).Nodup := (List.nodup_append.mp hkeys).2.1
        exact (List.nodup_cons.mp hked).1 (hpk ▸ List.mem_map_of_mem Prod.fst hp)
      have hstep : mergeStep (done ++ ke :: m2) rv =
          done ++ (ke.1, { ke.2 with vecScore := rv.score }) :: m2 := by
        unfold mergeStep
        rw [if_pos]
        · rw [List.map_append, List.map_cons]
          rw [List.map_congr_left (fun p hp => if_neg (fun hx => hdone_ne p hp (hx.trans hk.symm)))]
          rw [List.map_id']
          rw [if_pos hk]
          rw [List.map_congr_left (fun p hp => if_neg (fun hx => hm2_ne p hp (hx.trans hk.symm)))]
          rw [List.map_id']
        · simp only [List.any_eq_true, decide_eq_true_eq]
          exact ⟨ke, List.mem_append_right _ (List.mem_cons_self _ _), hk⟩
      rw [List.foldl_cons, hstep]
      have hreassoc : done ++ (ke.1, { ke.2 with vecScore := rv.score }) :: m2 =
          (done ++ [(ke.1, { ke.2 with vecScore := rv.score })]) ++ m2 := by
        rw [List.append_assoc, List.singleton_append]
      rw [hreassoc]
      rw [ih (done ++ [(ke.1, ({ ke.2 with vecScore := rv.score } : MergeEntry))]) m2
        htl
        (by
          have hsame : ((done ++ [(ke.1, ({ ke.2 with vecScore := rv.score } : MergeEntry))])
              ++ m2).map Prod.fst = ((done ++ ke :: m2)).map Prod.fst := by
            rw [List.append_assoc, List.singleton_append]
            rw [List.map_append, List.map_cons, List.map_append, List.map_cons]
          rw [hsame]
          exact hnodup)]
      rw [List.zipWith_cons_cons, List.append_assoc, List.singleton_append]

theorem mem_zipWith_imp {α β γ : Type} {f : α → β → γ} :
    ∀ {l : List α} {l2 : List β} {c : γ}, c ∈ List.zipWith f l l2 →
      ∃ a, a ∈ l ∧ ∃ b, b ∈ l2 ∧ c = f a b := by
  intro l
  induction l with
  | nil => intro l2 c hc; simp at hc
  | cons a as ih =>
    intro l2 c hc
    cases l2 with
    | nil => simp at hc
    | cons b bs =>
      rw [List.zipWith_cons_cons] at hc
      rcases List.mem_cons.mp hc with rfl | hc
      · exact ⟨a, by simp, b, by simp, rfl⟩
      · obtain ⟨a1, ha1, b1, hb1, rfl⟩ := ih hc
        exact ⟨a1, by simp [ha1], b1, by simp [hb1], rfl⟩

theorem pairwise_zipWith {α β γ : Type} (R : α → α → Prop) (S : β → β → Prop)
    (T : γ → γ → Prop) (f : α → β → γ)
    (hf : ∀ a a2 b b2, R a a2 → S b b2 → T (f a b) (f a2 b2)) :
    ∀ (l : List α) (l2 : List β), l.Pairwise R → l2.Pairwise S →
      (List.zipWith f l l2).Pairwise T := by
  intro l
  induction l with
  | nil => intro l2 _ _; simp
  | cons a as ih =>
    intro l2 hR hS
    cases l2 with
    | nil => simp
    | cons b bs =>
      rw [List.zipWith_cons_cons]
      rw [List.pairwise_cons] at hR hS ⊢
      refine ⟨?_, ih bs hR.2 hS.2⟩
      intro c hc
      obtain ⟨a1, ha1, b1, hb1, rfl⟩ := mem_zipWith_imp hc
      exact hf a a1 b b1 (hR.1 a1 ha1) (hS.1 b1 hb1)

theorem zipWith_left_proj {α β γ : Type} (g : α → γ) :
    ∀ (l : List α) (l2 : List β), l.length ≤ l2.length →
      List.zipWith (fun x _ => g x) l l2 = l.map g := by
  intro l
  induction l with
  | nil => intro l2 _; simp
  | cons x xs ih =>
    intro l2 hl
    cases l2 with
    | nil => simp at hl
    | cons y ys =>
      rw [List.zipWith_cons_cons, List.map_cons, ih ys (by simpa using hl)]

theorem mergeHybrid_sorted (fts vec : List SearchResult) (a b : ℚ) :
    (mergeHybrid fts vec a b).Pairwise (fun x y => y.score ≤ x.score) := by
  unfold mergeHybrid
  refine List.Pairwise.imp ?_ (List.sorted_mergeSort ?_ ?_ _)
  · exact fun hx => by simpa using hx
  · intro x y z hxy hyz
    simp only [decide_eq_true_eq] at hxy hyz ⊢
    exact le_trans hyz hxy
  · intro x y
    simp only [Bool.or_eq_true, decide_eq_true_eq]
    exact le_total y.score x.score

theorem mergeHybrid_aligned (fts vec : List SearchResult) (a b : ℚ)
    (ha : 0 ≤ a) (hb : 0 ≤ b)
    (hkeysEq : fts.map mergeKey = vec.map mergeKey)
    (hnodup : (fts.map mergeKey).Nodup)
    (hfts : fts.Pairwise (fun x y => y.score ≤ x.score))
    (hvec : vec.Pairwise (fun x y => y.score ≤ x.score)) :
    (mergeHybrid fts vec a b).map (fun r => (r.path, r.startLine)) =
      fts.map (fun r => (r.path, r.startLine)) := by
  obtain ⟨gf, hgf, hnf⟩ := normalizeScores_map fts
  obtain ⟨gv, hgv, hnv⟩ := normalizeScores_map vec
  have hnf_keys : (normalizeScores fts).map mergeKey = fts.map mergeKey := by
    rw [hnf, List.map_map]
    rfl
  have hnv_keys : (normalizeScores vec).map mergeKey = vec.map mergeKey := by
    rw [hnv, List.map_map]
    rfl
  have hnf_len : (normalizeScores fts).length = fts.length := by
    rw [hnf, List.length_map]
  have hnv_len : (normalizeScores vec).length = vec.length := by
    rw [hnv, List.length_map]
  have hlen : fts.length = vec.length := by
    have := congrArg List.length hkeysEq
    simpa using this
  have hm0 : (normalizeScores fts).foldl insStep [] =
      (normalizeScores fts).map (fun r => (mergeKey r, ⟨r.score, 0, r⟩)) := by
    rw [foldl_insStep_fresh (normalizeScores fts) [] (by simp) (by rw [hnf_keys]; exact hnodup)]
    rw [List.nil_append]
  have hm0_keys : ((normalizeScores fts).map
      (fun r => (mergeKey r, (⟨r.score, 0, r⟩ : MergeEntry)))).map Prod.fst =
      (normalizeScores vec).map mergeKey := by
    rw [List.map_map]
    have hcomp : (Prod.fst ∘ fun r : SearchResult =>
        (mergeKey r, (⟨r.score, 0, r⟩ : MergeEntry))) = mergeKey := rfl
    rw [hcomp, hnf_keys, hnv_keys]
    exact hkeysEq
  have hm1 : (normalizeScores vec).foldl mergeStep
      ((normalizeScores fts).map (fun r => (mergeKey r, ⟨r.score, 0, r⟩))) =
      List.zipWith (fun (p : String × MergeEntry) (rv : SearchResult) =>
          (p.1, { p.2 with vecScore := rv.score }))
        ((normalizeScores fts).map (fun r => (mergeKey r, ⟨r.score, 0, r⟩)))
        (normalizeScores vec) := by
    have hx := foldl_mergeStep_aligned (normalizeScores vec) []
      ((normalizeScores fts).map (fun r => (mergeKey r, ⟨r.score, 0, r⟩)))
      hm0_keys
      (by
        rw [List.nil_append]
        rw [show ((normalizeScores fts).map
            (fun r => (mergeKey r, (⟨r.score, 0, r⟩ : MergeEntry)))).map Prod.fst =
            (normalizeScores fts).map mergeKey from by
          rw [List.map_map]
          rfl]
        rw [hnf_keys]
        exact hnodup)
    rw [List.nil_append] at hx
    exact hx
  unfold mergeHybrid
  rw [hm0, hm1]
  rw [List.zipWith_map_left, List.map_zipWith]
  have hsortirrel : List.mergeSort
      (List.zipWith (fun rf rv =>
        ({ rf with score := a * rf.score + b * rv.score } : SearchResult))
        (normalizeScores fts) (normalizeScores vec))
      (fun x y => decide (y.score ≤ x.score)) =
      List.zipWith (fun rf rv =>
        ({ rf with score := a * rf.score + b * rv.score } : SearchResult))
        (normalizeScores fts) (normalizeScores vec) := by
    refine List.mergeSort_of_sorted ?_
    refine List.Pairwise.imp ?_ (pairwise_zipWith
      (fun x y : SearchResult => y.score ≤ x.score)
      (fun x y : SearchResult => y.score ≤ x.score)
      (fun x y : SearchResult => y.score ≤ x.score)
      (fun rf rv => { rf with score := a * rf.score + b * rv.score })
      (by
        intro a1 a2 b1 b2 hA hB
        show a * a2.score + b * b2.score ≤ a * a1.score + b * b1.score
        have h1 := mul_le_mul_of_nonneg_left hA ha
        have h2 := mul_le_mul_of_nonneg_left hB hb
        linarith)
      (normalizeScores fts) (normalizeScores vec)
      (by rw [hnf]; exact pairwise_desc_map gf hgf fts hfts)
      (by rw [hnv]; exact pairwise_desc_map gv hgv vec hvec))
    intro x y hxy
    simpa using hxy
  rw [hsortirrel]
  rw [List.map_zipWith]
  rw [zipWith_left_proj (fun rf : SearchResult => (rf.path, rf.startLine))
    (normalizeScores fts) (normalizeScores vec) (by rw [hnf_len, hnv_len, hlen])]
  rw [hnf, List.map_map]
  rfl

theorem mergeHybrid_disjoint_single (r1 r2 : SearchResult) (a b : ℚ)
    (hne : mergeKey r1 ≠ mergeKey r2) (hba : b ≤ a) :
    mergeHybrid [r1] [r2] a b =
      [{ r1 with score := a * 1 + b * 0 }, { r2 with score := a * 0 + b * 1 }] := by
  unfold mergeHybrid
  rw [normalizeScores_single, normalizeScores_single]
  rw [List.foldl_cons, List.foldl_nil, List.foldl_cons, List.foldl_nil]
  have hins : insStep [] { r1 with score := (1 : ℚ) } =
      [(mergeKey { r1 with score := (1 : ℚ) },
        ⟨({ r1 with score := (1 : ℚ) }).score, 0, { r1 with score := (1 : ℚ) }⟩)] := rfl
  rw [hins]
  have hmer : mergeStep [(mergeKey { r1 with score := (1 : ℚ) },
        (⟨({ r1 with score := (1 : ℚ) }).score, 0,
          { r1 with score := (1 : ℚ) }⟩ : MergeEntry))]
      { r2 with score := (1 : ℚ) } =
      [(mergeKey { r1 with score := (1 : ℚ) },
        ⟨({ r1 with score := (1 : ℚ) }).score, 0, { r1 with score := (1 : ℚ) }⟩),
       (mergeKey { r2 with score := (1 : ℚ) },
        ⟨0, ({ r2 with score := (1 : ℚ) }).score, { r2 with score := (1 : ℚ) }⟩)] := by
    unfold mergeStep
    rw [if_neg (by
      simp only [List.any_eq_true, decide_eq_true_eq, not_exists, not_and,
        List.mem_singleton]
      intro p hp
      rw [hp]
      exact hne)]
    rfl
  rw [hmer]
  rw [List.map_cons, List.map_cons, List.map_nil]
  refine List.mergeSort_of_sorted ?_
  refine List.pairwise_cons.mpr ⟨?_, by simp⟩
  intro z hz
  rcases List.mem_singleton.mp hz with rfl
  simp only [decide_eq_true_eq]
  show a * 0 + b * 1 ≤ a * 1 + b * 0
  linarith

/-- C1. Hybrid fusion: one-element lists normalize to score 1; an all-equal
list normalizes to all-1; the merged list is sorted by score descending; a
result present in only one source contributes 0 for the missing score
(weights surface directly for two key-disjoint singletons); and when both
lists contain the same result keys in the same relative order, the
0.5/0.5-weighted fused order equals that shared order. -/
theorem c1_hybrid_fusion :
    (∀ r : SearchResult, normalizeScores [r] = [{ r with score := 1 }])
    ∧ (∀ (rs : List SearchResult) (c : ℚ), rs ≠ [] → (∀ r ∈ rs, r.score = c) →
        normalizeScores rs = rs.map (fun r => { r with score := 1 }))
    ∧ (∀ (fts vec : List SearchResult) (a b : ℚ),
        (mergeHybrid fts vec a b).Pairwise (fun x y => y.score ≤ x.score))
    ∧ (∀ (r1 r2 : SearchResult) (a b : ℚ), mergeKey r1 ≠ mergeKey r2 → b ≤ a →
        mergeHybrid [r1] [r2] a b =
          [{ r1 with score := a * 1 + b * 0 }, { r2 with score := a * 0 + b * 1 }])
    ∧ (∀ fts vec : List SearchResult,
        fts.map mergeKey = vec.map mergeKey →
        (fts.map mergeKey).Nodup →
        fts.Pairwise (fun x y => y.score ≤ x.score) →
        vec.Pairwise (fun x y => y.score ≤ x.score) →
        (mergeHybrid fts vec (1 / 2) (1 / 2)).map (fun r => (r.path, r.startLine)) =
          fts.map (fun r => (r.path, r.startLine))) :=
  ⟨normalizeScores_single, normalizeScores_const, mergeHybrid_sorted,
   mergeHybrid_disjoint_single,
   fun fts vec hkeysEq hnodup hfts hvec =>
     mergeHybrid_aligned fts vec (1 / 2) (1 / 2) (by norm_num) (by norm_num)
       hkeysEq hnodup hfts hvec⟩

/-- Witness for C1 at two aligned two-element result lists. -/
theorem c1_hybrid_fusion_witness :
    (mergeHybrid
        [⟨"memory/a.md", 3, 5, 3, "sa", "memory"⟩, ⟨"memory/b.md", 1, 2, 2, "sb", "memory"⟩]
        [⟨"memory/a.md", 3, 5, 4, "sa", "memory"⟩, ⟨"memory/b.md", 1, 2, 1, "sb", "memory"⟩]
        (1 / 2) (1 / 2)).map (fun r => (r.path, r.startLine)) =
      [("memory/a.md", 3), ("memory/b.md", 1)] :=
  c1_hybrid_fusion.2.2.2.2
    [⟨"memory/a.md", 3, 5, 3, "sa", "memory"⟩, ⟨"memory/b.md", 1, 2, 2, "sb", "memory"⟩]
    [⟨"memory/a.md", 3, 5, 4, "sa", "memory"⟩, ⟨"memory/b.md", 1, 2, 1, "sb", "memory"⟩]
    rfl
    (by decide)
    (by decide)
    (by decide)

/-! ## C5: access-count bump and access boost (search.ts) -/

/-- A row of the `chunks` table (schema of db.ts; `access_count DEFAULT 0`). -/
structure ChunkRow where
  id : String
  path : String
  source : String
  start_line : Nat
  end_line : Nat
  hash : String
  text : String
  updated_at : Nat
  access_count : Nat
deriving DecidableEq, Repr

/-- `bumpAccessCount` from search.ts: one `UPDATE ... access_count =
access_count + 1 WHERE path = ? AND start_line = ?` per returned result. -/
def bumpAccessCount (chunks : List ChunkRow) (results : List SearchResult) :
    List ChunkRow :=
  results.foldl
    (fun cs r => cs.map (fun c =>
      if c.path = r.path ∧ c.start_line = r.startLine then
        { c with access_count := c.access_count + 1 } else c))
    chunks

/-- The `SELECT access_count FROM chunks WHERE path = ? AND start_line = ?`
lookup with the JS `row?.access_count ?? 0` default. -/
def accessCountFor (chunks : List ChunkRow) (r : SearchResult) : Nat :=
  match chunks.find? (fun c => decide (c.path = r.path ∧ c.start_line = r.startLine)) with
  | some c => c.access_count
  | none => 0

/-- The blended score of `applyAccessBoost`:
`0.85 * score + 0.15 * min(1, log2(1 + count) / 10)`. -/
def specBoostScore (lg : Nat → ℚ) (score : ℚ) (count : Nat) : ℚ :=
  (85 / 100) * score + (15 / 100) * min 1 (lg (1 + count) / 10)

/-- `applyAccessBoost` from search.ts, with `Math.log2` as the parameter
`lg`. -/
def applyAccessBoost (lg : Nat → ℚ) (chunks : List ChunkRow)
    (results : List SearchResult) : List SearchResult :=
  if results.length ≤ 1 then results
  else
    (results.map (fun r =>
      if 0 < accessCountFor chunks r then
        { r with score := specBoostScore lg r.score (accessCountFor chunks r) }
      else r)).mergeSort (fun a b => decide (b.score ≤ a.score))

/-- The tail of `searchMemory`: slice to `maxResults`, bump the access
counts of the returned results, then apply the access boost (search.ts lines
173-175). -/
def searchFinalize (lg : Nat → ℚ) (chunks : List ChunkRow)
    (results : List SearchResult) (maxResults : Nat) :
    List ChunkRow × List SearchResult :=
  (bumpAccessCount chunks (results.take maxResults),
   applyAccessBoost lg (bumpAccessCount chunks (results.take maxResults))
     (results.take maxResults))

/-- `Math.log2` observed at the single point the counterexample needs:
`Math.log2 2 = 1`. -/
def log2At2 : Nat → ℚ := fun n => if n = 2 then 1 else 0

theorem bumpAccessCount_countP :
    ∀ (results : List SearchResult) (chunks : List ChunkRow),
      bumpAccessCount chunks results = chunks.map (fun c =>
        { c with access_count := c.access_count +
            results.countP (fun r => decide (c.path = r.path ∧ c.start_line = r.startLine)) }) := by
  intro results
  induction results with
  | nil =>
    intro chunks
    unfold bumpAccessCount
    rw [List.foldl_nil]
    conv_lhs => rw [← List.map_id chunks]
    refine List.map_congr_left ?_
    intro c _
    simp [List.countP_nil]
  | cons r rest ih =>
    intro chunks
    unfold bumpAccessCount
    rw [List.foldl_cons]
    have hx := ih (chunks.map (fun c =>
      if c.path = r.path ∧ c.start_line = r.startLine then
        { c with access_count := c.access_count + 1 } else c))
    unfold bumpAccessCount at hx
    rw [hx, List.map_map]
    refine List.map_congr_left ?_
    intro c _
    simp only [Function.comp_apply]
    by_cases hmatch : c.path = r.path ∧ c.start_line = r.startLine
    · rw [if_pos hmatch]
      show ({ c with access_count := c.access_count + 1 + rest.countP _ } : ChunkRow) = _
      have hcnt : (r :: rest).countP
          (fun r2 => decide (c.path = r2.path ∧ c.start_line = r2.startLine)) =
          rest.countP (fun r2 => decide (c.path = r2.path ∧ c.start_line = r2.startLine)) + 1 := by
        rw [List.countP_cons, if_pos (by simpa using hmatch)]
      rw [hcnt]
      show ({ c with access_count := c.access_count + 1 + rest.countP _ } : ChunkRow) =
        { c with access_count := c.access_count + (rest.countP _ + 1) }
      rw [show c.access_count + 1 + rest.countP
          (fun r2 => decide (c.path = r2.path ∧ c.start_line = r2.startLine)) =
          c.access_count + (rest.countP
            (fun r2 => decide (c.path = r2.path ∧ c.start_line = r2.startLine)) + 1) from by omega]
    · rw [if_neg hmatch]
      have hcnt : (r :: rest).countP
          (fun r2 => decide (c.path = r2.path ∧ c.start_line = r2.startLine)) =
          rest.countP (fun r2 => decide (c.path = r2.path ∧ c.start_line = r2.startLine)) := by
        rw [List.countP_cons, if_neg (by simpa using hmatch)]
        omega
      rw [hcnt]

theorem applyAccessBoost_short (lg : Nat → ℚ) (chunks : List ChunkRow)
    (results : List SearchResult) (h : results.length ≤ 1) :
    applyAccessBoost lg chunks results = results := by
  unfold applyAccessBoost
  rw [if_pos h]

theorem applyAccessBoost_sorted (lg : Nat → ℚ) (chunks : List ChunkRow)
    (results : List SearchResult) :
    (applyAccessBoost lg chunks results).Pairwise (fun x y => y.score ≤ x.score) := by
  unfold applyAccessBoost
  by_cases h : results.length ≤ 1
  · rw [if_pos h]
    cases results with
    | nil => simp
    | cons r rest =>
      cases rest with
      | nil => simp
      | cons r2 rest2 => simp at h
  · rw [if_neg h]
    refine List.Pairwise.imp ?_ (List.sorted_mergeSort ?_ ?_ _)
    · exact fun hx => by simpa using hx
    · intro x y z hxy hyz
      simp only [decide_eq_true_eq] at hxy hyz ⊢
      exact le_trans hyz hxy
    · intro x y
      simp only [Bool.or_eq_true, decide_eq_true_eq]
      exact le_total y.score x.score

theorem applyAccessBoost_perm (lg : Nat → ℚ) (chunks : List ChunkRow)
    (results : List SearchResult) (h : 2 ≤ results.length) :
    (applyAccessBoost lg chunks results).Perm
      (results.map (fun r =>
        if 0 < accessCountFor chunks r then
          { r with score := specBoostScore lg r.score (accessCountFor chunks r) }
        else r)) := by
  unfold applyAccessBoost
  rw [if_neg (by omega)]
  exact List.mergeSort_perm _ _

/-- C5 counterexample: the spec says the boost applies to every non-empty
returned list including a single-result list, but `applyAccessBoost` returns
a one-element list unchanged: after the bump the chunk of the only result
has `access_count = 1 > 0`, yet its returned score stays `1` instead of the
blended `0.85 * 1 + 0.15 * min(1, log2(1 + 1) / 10) = 0.865`
(`log2At2` agrees with `Math.log2` at the only evaluated point, `2`). -/
theorem c5_access_boost_cex :
    (searchFinalize log2At2
        [⟨"c1", "memory/a.md", "memory", 3, 5, "h", "t", 0, 0⟩]
        [⟨"memory/a.md", 3, 5, 1, "s", "memory"⟩] 5).2 =
      [⟨"memory/a.md", 3, 5, 1, "s", "memory"⟩]
    ∧ accessCountFor
        (searchFinalize log2At2
          [⟨"c1", "memory/a.md", "memory", 3, 5, "h", "t", 0, 0⟩]
          [⟨"memory/a.md", 3, 5, 1, "s", "memory"⟩] 5).1
        ⟨"memory/a.md", 3, 5, 1, "s", "memory"⟩ = 1
    ∧ specBoostScore log2At2 (1 : ℚ) 1 ≠ (1 : ℚ) := by
  refine ⟨rfl, rfl, ?_⟩
  unfold specBoostScore log2At2
  rw [if_pos (by norm_num : (1 : Nat) + 1 = 2)]
  rw [min_eq_right (by norm_num : (1 : ℚ) / 10 ≤ 1)]
  norm_num

/-- C5 (amended). After slicing to `maxResults`, the access count of every
chunk matching a returned `(path, startLine)` is incremented (by the number
of matching returned results); then, when at least two results are returned,
every result whose chunk has a positive count gets the blended score
`0.85 * score + 0.15 * min(1, log2(1 + count) / 10)` and the list is
re-sorted by score descending — but a list with at most one result is
returned unchanged, without the boost. -/
theorem c5_access_boost :
    (∀ (chunks : List ChunkRow) (results : List SearchResult),
        bumpAccessCount chunks results = chunks.map (fun c =>
          { c with access_count := c.access_count +
              results.countP (fun r =>
                decide (c.path = r.path ∧ c.start_line = r.startLine)) }))
    ∧ (∀ (lg : Nat → ℚ) (chunks : List ChunkRow) (results : List SearchResult),
        results.length ≤ 1 → applyAccessBoost lg chunks results = results)
    ∧ (∀ (lg : Nat → ℚ) (chunks : List ChunkRow) (results : List SearchResult),
        (applyAccessBoost lg chunks results).Pairwise (fun x y => y.score ≤ x.score))
    ∧ (∀ (lg : Nat → ℚ) (chunks : List ChunkRow) (results : List SearchResult),
        2 ≤ results.length →
        (applyAccessBoost lg chunks results).Perm
          (results.map (fun r =>
            if 0 < accessCountFor chunks r then
              { r with score := specBoostScore lg r.score (accessCountFor chunks r) }
            else r)))
    ∧ (∀ (lg : Nat → ℚ) (chunks : List ChunkRow) (results : List SearchResult)
        (maxResults : Nat),
        searchFinalize lg chunks results maxResults =
          (bumpAccessCount chunks (results.take maxResults),
           applyAccessBoost lg (bumpAccessCount chunks (results.take maxResults))
             (results.take maxResults))) :=
  ⟨fun chunks results => bumpAccessCount_countP results chunks,
   applyAccessBoost_short, applyAccessBoost_sorted, applyAccessBoost_perm,
   fun _ _ _ _ => rfl⟩

/-- Witness for C5: a one-element result list is returned unchanged. -/
theorem c5_access_boost_witness :
    applyAccessBoost log2At2 []
      [⟨"memory/a.md", 3, 5, 1, "s", "memory"⟩] =
      [⟨"memory/a.md", 3, 5, 1, "s", "memory"⟩] :=
  c5_access_boost.2.1 log2At2 [] [⟨"memory/a.md", 3, 5, 1, "s", "memory"⟩] (by decide)

/-! ## C3/C4: the sync model (sync.ts `syncMemoryFiles` / `indexFile`) -/

/-- A row of the `files` table. -/
structure FileRow where
  path : String
  source : String
  hash : String
  mtime : Nat
  size : Nat
deriving DecidableEq, Repr

/-- A row of the `chunks_fts` table. -/
structure FtsRow where
  text : String
  id : String
  path : String
  source : String
  start_line : Nat
  end_line : Nat
deriving DecidableEq, Repr

/-- A row of the `chunks_vec` table (only the id matters here). -/
structure VecRow where
  id : String
deriving DecidableEq, Repr

/-- The database state touched by `syncMemoryFiles`. -/
structure Store where
  files : List FileRow
  chunks : List ChunkRow
  fts : List FtsRow
  vec : List VecRow
deriving DecidableEq, Repr

/-- A Scanner entry (`buildFileEntry` output). -/
structure MemoryFileEntry where
  path : String
  content : String
  hash : String
  mtimeMs : Nat
  size : Nat
deriving DecidableEq, Repr

/-- The result record of a sync. -/
structure SyncResult where
  indexed : Nat
  skipped : Nat
  deleted : Nat
deriving DecidableEq, Repr

/-- The `DO UPDATE SET` row of the files upsert. -/
def upsertRow (f : FileRow) (entry : MemoryFileEntry) (src : String) : FileRow :=
  ⟨f.path, src, entry.hash, entry.mtimeMs, entry.size⟩

/-- `INSERT INTO files ... ON CONFLICT(path) DO UPDATE ...` -/
def upsertFile (files : List FileRow) (entry : MemoryFileEntry) (src : String) :
    List FileRow :=
  if files.any (fun f => decide (f.path = entry.path)) then
    files.map (fun f => if f.path = entry.path then upsertRow f entry src else f)
  else files ++ [⟨entry.path, src, entry.hash, entry.mtimeMs, entry.size⟩]

/-- `indexFile` from sync.ts: chunk the entry, clear the file's old chunk,
FTS and vector rows, insert the new chunk data, and upsert the file row.
`h` is `hashText`, `seg` is `segmentText`. The per-row vector delete loop is
modelled by its effect. -/
def indexFile (h seg : String → String) (parse : String → Option JsonF)
    (ftsOk : Bool) (now : Nat) (chunkSize : Option Nat) (source : String)
    (st : Store) (entry : MemoryFileEntry) : Store :=
  let cs := if source = "sessions" then
      chunkMarkdown h entry.content
        (match chunkSize with
         | some n => ⟨n, n / 8⟩
         | none => ⟨512, 64⟩)
    else chunkFile h parse entry.content entry.path chunkSize
  let filtered := cs.filter (fun c => decide (0 < (jsTrim c.text).length))
  let oldIds := (st.chunks.filter
    (fun c => decide (c.path = entry.path ∧ c.source = source))).map (fun c => c.id)
  let chunkData := filtered.map (fun c =>
    (h (source ++ ":" ++ entry.path ++ ":" ++ toString c.startLine ++ ":" ++
      toString c.endLine ++ ":" ++ c.hash), c))
  { files := upsertFile st.files entry source
    chunks := st.chunks.filter
        (fun c => decide (¬ (c.path = entry.path ∧ c.source = source))) ++
      chunkData.map (fun pc =>
        ⟨pc.1, entry.path, source, pc.2.startLine, pc.2.endLine, pc.2.hash,
         pc.2.text, now, 0⟩)
    fts := (if ftsOk then
        st.fts.filter (fun f => decide (¬ (f.path = entry.path ∧ f.source = source)))
      else st.fts) ++
      (if ftsOk then
        chunkData.map (fun pc =>
          ⟨seg pc.2.text, pc.1, entry.path, source, pc.2.startLine, pc.2.endLine⟩)
      else [])
    vec := st.vec.filter (fun v => decide (v.id ∉ oldIds)) }

/-- One iteration of the entry loop of `syncMemoryFiles`: skip when not
forced and the stored hash matches, else re-index. The accumulator carries
(store, indexed, skipped). -/
def syncStep (h seg : String → String) (parse : String → Option JsonF)
    (ftsOk : Bool) (now : Nat) (chunkSize : Option Nat) (force : Bool)
    (acc : Store × Nat × Nat) (entry : MemoryFileEntry) : Store × Nat × Nat :=
  if force = false ∧
      (acc.1.files.find? (fun f =>
        decide (f.path = entry.path ∧ f.source = "memory"))).map (fun f => f.hash) =
        some entry.hash then
    (acc.1, acc.2.1, acc.2.2 + 1)
  else
    (indexFile h seg parse ftsOk now chunkSize "memory" acc.1 entry, acc.2.1 + 1, acc.2.2)

/-- The per-path stale deletion of `syncMemoryFiles`: delete the file row,
its chunks, its FTS rows (when FTS is available) and the vector rows whose
ids are the path's current chunk ids. -/
def staleDelete (ftsOk : Bool) (st : Store) (p : String) : Store :=
  { files := st.files.filter (fun f => decide (¬ (f.path = p ∧ f.source = "memory")))
    chunks := st.chunks.filter (fun c => decide (¬ (c.path = p ∧ c.source = "memory")))
    fts := if ftsOk then
        st.fts.filter (fun f => decide (¬ (f.path = p ∧ f.source = "memory")))
      else st.fts
    vec := st.vec.filter (fun v => decide (v.id ∉
      (st.chunks.filter (fun c => decide (c.path = p ∧ c.source = "memory"))).map
        (fun c => c.id))) }

/-- The stale-row loop of `syncMemoryFiles` over the snapshot of stored
memory paths. -/
def staleLoop (ftsOk : Bool) (activePaths : List String) :
    List String → Store → Nat → Store × Nat
  | [], st, d => (st, d)
  | p :: rest, st, d =>
    if p ∈ activePaths then staleLoop ftsOk activePaths rest st d
    else staleLoop ftsOk activePaths rest (staleDelete ftsOk st p) (d + 1)

/-- `syncMemoryFiles` from sync.ts over the Scanner's entries: the entry
loop, then the stale-row sweep over the stored memory paths. -/
def syncMemoryFiles (h seg : String → String) (parse : String → Option JsonF)
    (ftsOk : Bool) (now : Nat) (entries : List MemoryFileEntry) (st : Store)
    (force : Bool) (chunkSize : Option Nat) : Store × SyncResult :=
  ((staleLoop ftsOk (entries.map (fun e => e.path))
      (((entries.foldl (syncStep h seg parse ftsOk now chunkSize force)
          (st, 0, 0)).1.files.filter
        (fun f => decide (f.source = "memory"))).map (fun f => f.path))
      (entries.foldl (syncStep h seg parse ftsOk now chunkSize force) (st, 0, 0)).1 0).1,
   ⟨(entries.foldl (syncStep h seg parse ftsOk now chunkSize force) (st, 0, 0)).2.1,
    (entries.foldl (syncStep h seg parse ftsOk now chunkSize force) (st, 0, 0)).2.2,
    (staleLoop ftsOk (entries.map (fun e => e.path))
      (((entries.foldl (syncStep h seg parse ftsOk now chunkSize force)
          (st, 0, 0)).1.files.filter
        (fun f => decide (f.source = "memory"))).map (fun f => f.path))
      (entries.foldl (syncStep h seg parse ftsOk now chunkSize force) (st, 0, 0)).1 0).2⟩)

/-- Every memory chunk row is backed by a memory file row: the invariant the
index loop maintains and the stale scan relies on. -/
def ChunksHaveFiles (st : Store) : Prop :=
  ∀ c ∈ st.chunks, c.source = "memory" →
    ∃ f ∈ st.files, f.path = c.path ∧ f.source = "memory"

theorem mem_upsertFile_exists (files : List FileRow) (entry : MemoryFileEntry)
    (src : String) :
    ∃ f ∈ upsertFile files entry src, f.path = entry.path ∧ f.source = src := by
  unfold upsertFile
  by_cases hany : files.any (fun f => decide (f.path = entry.path)) = true
  · rw [if_pos hany]
    rw [List.any_eq_true] at hany
    obtain ⟨f0, hf0, hfp⟩ := hany
    rw [decide_eq_true_eq] at hfp
    refine ⟨upsertRow f0 entry src, ?_, hfp, rfl⟩
    have hx : (if f0.path = entry.path then upsertRow f0 entry src else f0) ∈
        files.map (fun f => if f.path = entry.path then upsertRow f entry src else f) :=
      List.mem_map_of_mem _ hf0
    rw [if_pos hfp] at hx
    exact hx
  · rw [if_neg hany]
    exact ⟨⟨entry.path, src, entry.hash, entry.mtimeMs, entry.size⟩,
      List.mem_append_right _ (by simp), rfl, rfl⟩

theorem mem_upsertFile_preserve (files : List FileRow) (entry : MemoryFileEntry)
    (src : String) (f : FileRow) (hf : f ∈ files) (hs : f.source = src) :
    ∃ f2 ∈ upsertFile files entry src, f2.path = f.path ∧ f2.source = src := by
  unfold upsertFile
  by_cases hany : files.any (fun g => decide (g.path = entry.path)) = true
  · rw [if_pos hany]
    by_cases hp : f.path = entry.path
    · refine ⟨upsertRow f entry src, ?_, rfl, rfl⟩
      have hx : (if f.path = entry.path then upsertRow f entry src else f) ∈
          files.map (fun f => if f.path = entry.path then upsertRow f entry src else f) :=
        List.mem_map_of_mem _ hf
      rw [if_pos hp] at hx
      exact hx
    · refine ⟨f, ?_, rfl, hs⟩
      have hx : (if f.path = entry.path then upsertRow f entry src else f) ∈
          files.map (fun f => if f.path = entry.path then upsertRow f entry src else f) :=
        List.mem_map_of_mem _ hf
      rw [if_neg hp] at hx
      exact hx
  · rw [if_neg hany]
    exact ⟨f, List.mem_append_left _ hf, rfl, hs⟩

theorem indexFile_inv (h seg : String → String) (parse : String → Option JsonF)
    (ftsOk : Bool) (now : Nat) (chunkSize : Option Nat) (st : Store)
    (entry : MemoryFileEntry) (hinv : ChunksHaveFiles st) :
    ChunksHaveFiles (indexFile h seg parse ftsOk now chunkSize "memory" st entry) := by
  intro c hc hsrc
  rcases List.mem_append.mp hc with hold | hnew
  · have hmem := List.mem_of_mem_filter hold
    obtain ⟨f, hf, hfp, hfs⟩ := hinv c hmem hsrc
    obtain ⟨f2, hf2, hp2, hs2⟩ := mem_upsertFile_preserve st.files entry "memory" f hf hfs
    exact ⟨f2, hf2, hp2.trans hfp, hs2⟩
  · rw [List.mem_map] at hnew
    obtain ⟨pc, _, rfl⟩ := hnew
    obtain ⟨f2, hf2, hp2, hs2⟩ := mem_upsertFile_exists st.files entry "memory"
    exact ⟨f2, hf2, hp2, hs2⟩

theorem foldl_syncStep_inv (h seg : String → String) (parse : String → Option JsonF)
    (ftsOk : Bool) (now : Nat) (chunkSize : Option Nat) (force : Bool) :
    ∀ (entries : List MemoryFileEntry) (acc : Store × Nat × Nat),
      ChunksHaveFiles acc.1 →
      ChunksHaveFiles
        ((entries.foldl (syncStep h seg parse ftsOk now chunkSize force) acc).1) := by
  intro entries
  induction entries with
  | nil => intro acc hacc; exact hacc
  | cons e rest ih =>
    intro acc hacc
    rw [List.foldl_cons]
    refine ih _ ?_
    unfold syncStep
    split
    · exact hacc
    · exact indexFile_inv h seg parse ftsOk now chunkSize acc.1 e hacc

theorem filter_filter_of_imp {α : Type} (q pr : α → Bool)
    (h : ∀ a, pr a = true → q a = true) :
    ∀ l : List α, (l.filter q).filter pr = l.filter pr := by
  intro l
  induction l with
  | nil => rfl
  | cons a t ih =>
    by_cases hq : q a = true
    · rw [List.filter_cons_of_pos hq]
      by_cases hpr : pr a = true
      · rw [List.filter_cons_of_pos hpr, List.filter_cons_of_pos hpr, ih]
      · rw [List.filter_cons_of_neg (by simpa using hpr),
          List.filter_cons_of_neg (by simpa using hpr), ih]
    · rw [List.filter_cons_of_neg (by simpa using hq)]
      by_cases hpr : pr a = true
      · exact absurd (h a hpr) hq
      · rw [List.filter_cons_of_neg (by simpa using hpr), ih]

theorem staleLoop_subset_true (active : List String) :
    ∀ (rows : List String) (st : Store) (d : Nat),
      (∀ f ∈ (staleLoop true active rows st d).1.files, f ∈ st.files) ∧
      (∀ c ∈ (staleLoop true active rows st d).1.chunks, c ∈ st.chunks) ∧
      (∀ x ∈ (staleLoop true active rows st d).1.fts, x ∈ st.fts) ∧
      (∀ v ∈ (staleLoop true active rows st d).1.vec, v ∈ st.vec) := by
  intro rows
  induction rows with
  | nil =>
    intro st d
    exact ⟨fun f hf => hf, fun c hc => hc, fun x hx => hx, fun v hv => hv⟩
  | cons p rest ih =>
    intro st d
    rw [staleLoop]
    split
    · exact ih st d
    · obtain ⟨s1, s2, s3, s4⟩ := ih (staleDelete true st p) (d + 1)
      refine ⟨?_, ?_, ?_, ?_⟩
      · intro f hf
        exact List.mem_of_mem_filter (s1 f hf)
      · intro c hc
        exact List.mem_of_mem_filter (s2 c hc)
      · intro x hx
        exact List.mem_of_mem_filter (s3 x hx)
      · intro v hv
        exact List.mem_of_mem_filter (s4 v hv)

theorem staleLoop_processed (active : List String) :
    ∀ (rows : List String) (st : Store) (d : Nat) (p : String),
      p ∈ rows → p ∉ active →
      (∀ f ∈ (staleLoop true active rows st d).1.files,
        ¬ (f.path = p ∧ f.source = "memory")) ∧
      (∀ c ∈ (staleLoop true active rows st d).1.chunks,
        ¬ (c.path = p ∧ c.source = "memory")) ∧
      (∀ x ∈ (staleLoop true active rows st d).1.fts,
        ¬ (x.path = p ∧ x.source = "memory")) ∧
      (∀ v ∈ (staleLoop true active rows st d).1.vec,
        v.id ∉ (st.chunks.filter
          (fun c => decide (c.path = p ∧ c.source = "memory"))).map (fun c => c.id)) := by
  intro rows
  induction rows with
  | nil => intro st d p hp _; simp at hp
  | cons p2 rest ih =>
    intro st d p hp hpa
    rw [staleLoop]
    by_cases hact : p2 ∈ active
    · rw [if_pos hact]
      have hpr : p ∈ rest := by
        rcases List.mem_cons.mp hp with rfl | hpr
        · exact absurd hact hpa
        · exact hpr
      exact ih st d p hpr hpa
    · rw [if_neg hact]
      by_cases hpp : p2 = p
      · subst hpp
        obtain ⟨s1, s2, s3, s4⟩ := staleLoop_subset_true active rest
          (staleDelete true st p2) (d + 1)
        refine ⟨?_, ?_, ?_, ?_⟩
        · intro f hf hcon
          have hf2 : f ∈ st.files.filter
              (fun f => decide (¬ (f.path = p2 ∧ f.source = "memory"))) := s1 f hf
          have hneg := (List.mem_filter.mp hf2).2
          rw [decide_eq_true_eq] at hneg
          exact hneg hcon
        · intro c hc hcon
          have hc2 : c ∈ st.chunks.filter
              (fun c => decide (¬ (c.path = p2 ∧ c.source = "memory"))) := s2 c hc
          have hneg := (List.mem_filter.mp hc2).2
          rw [decide_eq_true_eq] at hneg
          exact hneg hcon
        · intro x hx hcon
          have hx2 : x ∈ st.fts.filter
              (fun f => decide (¬ (f.path = p2 ∧ f.source = "memory"))) := s3 x hx
          have hneg := (List.mem_filter.mp hx2).2
          rw [decide_eq_true_eq] at hneg
          exact hneg hcon
        · intro v hv
          have hv2 : v ∈ st.vec.filter (fun v => decide (v.id ∉
              (st.chunks.filter (fun c =>
                decide (c.path = p2 ∧ c.source = "memory"))).map (fun c => c.id))) :=
            s4 v hv
          have hneg := (List.mem_filter.mp hv2).2
          rw [decide_eq_true_eq] at hneg
          exact hneg
      · have hpr : p ∈ rest := by
          rcases List.mem_cons.mp hp with rfl | hpr
          · exact absurd rfl hpp
          · exact hpr
        have hres := ih (staleDelete true st p2) (d + 1) p hpr hpa
        refine ⟨hres.1, hres.2.1, hres.2.2.1, ?_⟩
        intro v hv
        have hx := hres.2.2.2 v hv
        have hfe : ((staleDelete true st p2).chunks.filter
            (fun c => decide (c.path = p ∧ c.source = "memory"))) =
            st.chunks.filter (fun c => decide (c.path = p ∧ c.source = "memory")) := by
          show (st.chunks.filter (fun c =>
              decide (¬ (c.path = p2 ∧ c.source = "memory")))).filter
              (fun c => decide (c.path = p ∧ c.source = "memory")) = _
          refine filter_filter_of_imp _ _ ?_ st.chunks
          intro c hcdec
          rw [decide_eq_true_eq] at hcdec
          rw [decide_eq_true_eq]
          intro hcon
          exact hpp (hcon.1.symm.trans hcdec.1)
        rw [hfe] at hx
        exact hx

theorem staleLoop_noop (ftsOk : Bool) (active : List String) :
    ∀ (rows : List String) (st : Store) (d : Nat), (∀ p ∈ rows, p ∈ active) →
      staleLoop ftsOk active rows st d = (st, d) := by
  intro rows
  induction rows with
  | nil => intro st d _; rfl
  | cons p rest ih =>
    intro st d hall
    rw [staleLoop, if_pos (hall p (by simp))]
    exact ih st d (fun q hq => hall q (by simp [hq]))

theorem foldl_syncStep_skip (h seg : String → String) (parse : String → Option JsonF)
    (ftsOk : Bool) (now : Nat) (chunkSize : Option Nat) :
    ∀ (entries : List MemoryFileEntry) (st : Store) (i k : Nat),
      (∀ e ∈ entries,
        (st.files.find? (fun f =>
          decide (f.path = e.path ∧ f.source = "memory"))).map (fun f => f.hash) =
          some e.hash) →
      entries.foldl (syncStep h seg parse ftsOk now chunkSize false) (st, i, k) =
        (st, i, k + entries.length) := by
  intro entries
  induction entries with
  | nil => intro st i k _; simp
  | cons e rest ih =>
    intro st i k hall
    rw [List.foldl_cons]
    have hstep : syncStep h seg parse ftsOk now chunkSize false (st, i, k) e =
        (st, i, k + 1) := by
      unfold syncStep
      rw [if_pos ⟨rfl, hall e (by simp)⟩]
    rw [hstep, ih st i (k + 1) (fun e2 he2 => hall e2 (by simp [he2]))]
    rw [List.length_cons, show k + (rest.length + 1) = k + 1 + rest.length from by omega]

/-- C3. Stale deletion: provided every memory chunk row is backed by a
memory file row (the invariant the index loop itself maintains), a sync with
FTS available leaves no memory chunk whose path is outside the Scanner's
active set, and for every stored memory path not in the active set the file
row, chunk rows, FTS rows and the vector rows with that path's chunk ids are
all gone. -/
theorem c3_stale_deletion (h seg : String → String) (parse : String → Option JsonF)
    (now : Nat) (entries : List MemoryFileEntry) (st : Store) (force : Bool)
    (chunkSize : Option Nat)
    (hinv : ∀ c ∈ st.chunks, c.source = "memory" →
      ∃ f ∈ st.files, f.path = c.path ∧ f.source = "memory") :
    (∀ c ∈ (syncMemoryFiles h seg parse true now entries st force chunkSize).1.chunks,
        c.source = "memory" → c.path ∈ entries.map (fun e => e.path))
    ∧ ∀ p,
        p ∈ (((entries.foldl (syncStep h seg parse true now chunkSize force)
            (st, 0, 0)).1.files.filter (fun f => decide (f.source = "memory"))).map
            (fun f => f.path)) →
        p ∉ entries.map (fun e => e.path) →
        (∀ f ∈ (syncMemoryFiles h seg parse true now entries st force chunkSize).1.files,
          ¬ (f.path = p ∧ f.source = "memory"))
        ∧ (∀ c ∈ (syncMemoryFiles h seg parse true now entries st force chunkSize).1.chunks,
          ¬ (c.path = p ∧ c.source = "memory"))
        ∧ (∀ x ∈ (syncMemoryFiles h seg parse true now entries st force chunkSize).1.fts,
          ¬ (x.path = p ∧ x.source = "memory"))
        ∧ ∀ v ∈ (syncMemoryFiles h seg parse true now entries st force chunkSize).1.vec,
          v.id ∉ ((entries.foldl (syncStep h seg parse true now chunkSize force)
              (st, 0, 0)).1.chunks.filter
              (fun c => decide (c.path = p ∧ c.source = "memory"))).map (fun c => c.id) := by
  have hmidinv : ChunksHaveFiles
      ((entries.foldl (syncStep h seg parse true now chunkSize force) (st, 0, 0)).1) :=
    foldl_syncStep_inv h seg parse true now chunkSize force entries (st, 0, 0) hinv
  constructor
  · intro c hc hsrc
    by_contra hpa
    have hc2 : c ∈ (staleLoop true (entries.map (fun e => e.path))
        (((entries.foldl (syncStep h seg parse true now chunkSize force)
          (st, 0, 0)).1.files.filter (fun f => decide (f.source = "memory"))).map
          (fun f => f.path))
        (entries.foldl (syncStep h seg parse true now chunkSize force) (st, 0, 0)).1
        0).1.chunks := hc
    have hcmid := (staleLoop_subset_true (entries.map (fun e => e.path)) _ _ 0).2.1 c hc2
    obtain ⟨f, hf, hfp, hfs⟩ := hmidinv c hcmid hsrc
    have hpstale : c.path ∈ (((entries.foldl (syncStep h seg parse true now chunkSize force)
        (st, 0, 0)).1.files.filter (fun f => decide (f.source = "memory"))).map
        (fun f => f.path)) := by
      rw [← hfp]
      exact List.mem_map_of_mem _
        (List.mem_filter.mpr ⟨hf, by rw [decide_eq_true_eq]; exact hfs⟩)
    have habs := (staleLoop_processed (entries.map (fun e => e.path)) _ _ 0 c.path
      hpstale hpa).2.1 c hc2
    exact habs ⟨rfl, hsrc⟩
  · intro p hpmem hpa
    have hproc := staleLoop_processed (entries.map (fun e => e.path))
      (((entries.foldl (syncStep h seg parse true now chunkSize force)
        (st, 0, 0)).1.files.filter (fun f => decide (f.source = "memory"))).map
        (fun f => f.path))
      (entries.foldl (syncStep h seg parse true now chunkSize force) (st, 0, 0)).1
      0 p hpmem hpa
    exact ⟨hproc.1, hproc.2.1, hproc.2.2.1, hproc.2.2.2⟩

/-- Witness for C3 at a store holding one stale memory file and an empty
active set. -/
theorem c3_stale_deletion_witness :
    (∀ f ∈ (syncMemoryFiles (fun s => s) (fun s => s) (fun _ => none) true 7 []
        ⟨[⟨"memory/old.md", "memory", "h0", 1, 1⟩],
         [⟨"cid1", "memory/old.md", "memory", 1, 1, "ch", "t", 1, 0⟩],
         [⟨"t", "cid1", "memory/old.md", "memory", 1, 1⟩],
         [⟨"cid1"⟩]⟩ false none).1.files,
      ¬ (f.path = "memory/old.md" ∧ f.source = "memory"))
    ∧ (∀ c ∈ (syncMemoryFiles (fun s => s) (fun s => s) (fun _ => none) true 7 []
        ⟨[⟨"memory/old.md", "memory", "h0", 1, 1⟩],
         [⟨"cid1", "memory/old.md", "memory", 1, 1, "ch", "t", 1, 0⟩],
         [⟨"t", "cid1", "memory/old.md", "memory", 1, 1⟩],
         [⟨"cid1"⟩]⟩ false none).1.chunks,
      ¬ (c.path = "memory/old.md" ∧ c.source = "memory"))
    ∧ (∀ x ∈ (syncMemoryFiles (fun s => s) (fun s => s) (fun _ => none) true 7 []
        ⟨[⟨"memory/old.md", "memory", "h0", 1, 1⟩],
         [⟨"cid1", "memory/old.md", "memory", 1, 1, "ch", "t", 1, 0⟩],
         [⟨"t", "cid1", "memory/old.md", "memory", 1, 1⟩],
         [⟨"cid1"⟩]⟩ false none).1.fts,
      ¬ (x.path = "memory/old.md" ∧ x.source = "memory"))
    ∧ ∀ v ∈ (syncMemoryFiles (fun s => s) (fun s => s) (fun _ => none) true 7 []
        ⟨[⟨"memory/old.md", "memory", "h0", 1, 1⟩],
         [⟨"cid1", "memory/old.md", "memory", 1, 1, "ch", "t", 1, 0⟩],
         [⟨"t", "cid1", "memory/old.md", "memory", 1, 1⟩],
         [⟨"cid1"⟩]⟩ false none).1.vec,
      v.id ∉ ((([] : List MemoryFileEntry).foldl
          (syncStep (fun s => s) (fun s => s) (fun _ => none) true 7 none false)
          (⟨[⟨"memory/old.md", "memory", "h0", 1, 1⟩],
            [⟨"cid1", "memory/old.md", "memory", 1, 1, "ch", "t", 1, 0⟩],
            [⟨"t", "cid1", "memory/old.md", "memory", 1, 1⟩],
            [⟨"cid1"⟩]⟩, 0, 0)).1.chunks.filter
          (fun c => decide (c.path = "memory/old.md" ∧ c.source = "memory"))).map
          (fun c => c.id) :=
  (c3_stale_deletion (fun s => s) (fun s => s) (fun _ => none) 7 []
    ⟨[⟨"memory/old.md", "memory", "h0", 1, 1⟩],
     [⟨"cid1", "memory/old.md", "memory", 1, 1, "ch", "t", 1, 0⟩],
     [⟨"t", "cid1", "memory/old.md", "memory", 1, 1⟩],
     [⟨"cid1"⟩]⟩ false none (by decide)).2 "memory/old.md" (by decide) (by decide)

/-- C4. Sync idempotence: with `force` unset, when every entry's stored hash
matches and every stored memory path is active, a sync returns the store
unchanged with `indexed = 0`, `deleted = 0` and `skipped` equal to the
number of entries; in particular a second sync right after the initial sync
of `memory/x.md` with content `hello` returns `{indexed 0, skipped 1,
deleted 0}` and the same store. -/
theorem c4_sync_idempotent :
    (∀ (h seg : String → String) (parse : String → Option JsonF) (ftsOk : Bool)
        (now : Nat) (entries : List MemoryFileEntry) (st : Store) (chunkSize : Option Nat),
        (∀ e ∈ entries,
          (st.files.find? (fun f =>
            decide (f.path = e.path ∧ f.source = "memory"))).map (fun f => f.hash) =
            some e.hash) →
        (∀ f ∈ st.files, f.source = "memory" → f.path ∈ entries.map (fun e => e.path)) →
        syncMemoryFiles h seg parse ftsOk now entries st false chunkSize =
          (st, ⟨0, entries.length, 0⟩))
    ∧ syncMemoryFiles (fun s => s) (fun s => s) (fun _ => none) true 7
        [⟨"memory/x.md", "hello", "hello", 5, 5⟩]
        ((syncMemoryFiles (fun s => s) (fun s => s) (fun _ => none) true 7
          [⟨"memory/x.md", "hello", "hello", 5, 5⟩] ⟨[], [], [], []⟩ false none).1)
        false none =
      ((syncMemoryFiles (fun s => s) (fun s => s) (fun _ => none) true 7
          [⟨"memory/x.md", "hello", "hello", 5, 5⟩] ⟨[], [], [], []⟩ false none).1,
       ⟨0, 1, 0⟩) := by
  constructor
  · intro h seg parse ftsOk now entries st chunkSize hhash hcover
    unfold syncMemoryFiles
    rw [foldl_syncStep_skip h seg parse ftsOk now chunkSize entries st 0 0 hhash]
    dsimp only
    rw [Nat.zero_add]
    rw [staleLoop_noop ftsOk (entries.map (fun e => e.path))
      ((st.files.filter (fun f => decide (f.source = "memory"))).map (fun f => f.path)) st 0
      (by
        intro q hq
        rw [List.mem_map] at hq
        obtain ⟨f, hf, rfl⟩ := hq
        have hmf := List.mem_filter.mp hf
        have hsrc := hmf.2
        rw [decide_eq_true_eq] at hsrc
        exact hcover f hmf.1 hsrc)]
  · rfl

/-- Witness for C4 at a store whose single file row matches its entry. -/
theorem c4_sync_idempotent_witness :
    syncMemoryFiles (fun s => s) (fun s => s) (fun _ => none) true 7
        [⟨"memory/x.md", "hello", "hello", 5, 5⟩]
        ⟨[⟨"memory/x.md", "memory", "hello", 5, 5⟩],
         [⟨"memory:memory/x.md:1:1:hello", "memory/x.md", "memory", 1, 1, "hello",
           "hello", 7, 0⟩],
         [⟨"hello", "memory:memory/x.md:1:1:hello", "memory/x.md", "memory", 1, 1⟩],
         []⟩
        false none =
      (⟨[⟨"memory/x.md", "memory", "hello", 5, 5⟩],
        [⟨"memory:memory/x.md:1:1:hello", "memory/x.md", "memory", 1, 1, "hello",
          "hello", 7, 0⟩],
        [⟨"hello", "memory:memory/x.md:1:1:hello", "memory/x.md", "memory", 1, 1⟩],
        []⟩, ⟨0, 1, 0⟩) :=
  c4_sync_idempotent.1 (fun s => s) (fun s => s) (fun _ => none) true 7
    [⟨"memory/x.md", "hello", "hello", 5, 5⟩] _ none (by decide) (by decide)

/-! ## C9: memory_write exact dedup (server.ts) -/

/-- `normalizeForMatch` from server.ts:
`text.toLowerCase().replace(/\s+/g, " ").trim()`. -/
def normalizeForMatch (text : String) : String :=
  jsTrim (String.mk (collapseWsList (jsToLower text).toList))

/-- `\d` of the entry regex. -/
def isAsciiDigit (c : Char) : Bool := decide ('0' ≤ c ∧ c ≤ '9')

/-- The optional `(?:\s+\[ref:.*?\])?` group of `ENTRY_RE`, matched against
the exact segment `a`: empty, or a whitespace run followed by `[ref:`, a dot
run and a final `]`. -/
def refPartB (a : List Char) : Bool :=
  decide (a = []) ||
    (decide (a.takeWhile jsWhitespace ≠ []) &&
      (let r := a.dropWhile jsWhitespace
       decide (r.take 5 = "[ref:".toList) && decide (6 ≤ r.length) &&
        decide (r.getLast? = some ']') && (r.drop 5).dropLast.all jsDot))

/-- The optional `(?:\s+_\(source:.*?\)_)?` group of `ENTRY_RE`. -/
def srcPartB (b : List Char) : Bool :=
  decide (b = []) ||
    (decide (b.takeWhile jsWhitespace ≠ []) &&
      (let r := b.dropWhile jsWhitespace
       decide (r.take 9 = "_(source:".toList) && decide (11 ≤ r.length) &&
        decide (r.drop (r.length - 2) = ")_".toList) &&
        ((r.drop 9).take (r.length - 11)).all jsDot))

/-- The optional `(?:\s+—\s+\d{4}.*)?` group of `ENTRY_RE`. -/
def timePartB (c : List Char) : Bool :=
  decide (c = []) ||
    (decide (c.takeWhile jsWhitespace ≠ []) &&
      (match c.dropWhile jsWhitespace with
       | '—' :: r2 =>
         decide (r2.takeWhile jsWhitespace ≠ []) &&
          (let r3 := r2.dropWhile jsWhitespace
           decide (4 ≤ r3.length) && (r3.take 4).all isAsciiDigit &&
            (r3.drop 4).all jsDot)
       | _ => false))

/-- The suffix of `ENTRY_RE` after the lazy capture: some split into the
three optional groups, consuming the whole remainder (the `$` anchor). -/
def entryTailMatches (t : List Char) : Bool :=
  (List.range (t.length + 1)).any (fun i =>
    (List.range (t.length - i + 1)).any (fun j =>
      refPartB (t.take i) && srcPartB ((t.drop i).take j) &&
        timePartB ((t.drop i).drop j)))

/-- `line.match(ENTRY_RE)`, returning the first capture: the line must start
with `- `, and the lazy `(.+?)` takes the shortest non-empty dot run whose
remainder matches the optional groups up to the end of the line. -/
def matchEntryContent (line : String) : Option String :=
  match line.toList with
  | '-' :: ' ' :: rest =>
    match (List.range rest.length).find? (fun k =>
      (rest.take (k + 1)).all jsDot && entryTailMatches (rest.drop (k + 1))) with
    | some k => some (String.mk (rest.take (k + 1)))
    | none => none
  | _ => none

/-- The dedup scan of the `memory_write` handler: some line of the existing
file parses as an entry whose normalized content equals the normalized
input. -/
def hasDuplicate (existing content : String) : Bool :=
  (jsSplitNl existing).any (fun line =>
    match matchEntryContent line with
    | some cap => decide (normalizeForMatch cap = normalizeForMatch content)
    | none => false)

/-- The category filename normalization:
`(category ?? "general").toLowerCase().replace(/[^a-z0-9_-]/g, "-")`. -/
def catNormalize (category : Option String) : String :=
  String.mk ((jsToLower (category.getD "general")).toList.map (fun ch =>
    if ('a' ≤ ch ∧ ch ≤ 'z') ∨ ('0' ≤ ch ∧ ch ≤ '9') ∨ ch = '_' ∨ ch = '-' then ch
    else '-'))

/-- `cat.charAt(0).toUpperCase() + cat.slice(1)`. -/
def capitalizeFirst (s : String) : String :=
  match s.toList with
  | [] => ""
  | c :: rest => String.mk (c.toUpper :: rest)

/-- The files the `memory_write` handler touches: the category file and the
evidence files. -/
structure MemState where
  catFile : Option String
  evidence : List (String × String)
deriving DecidableEq, Repr

/-- The JSON the handler returns, reduced to the fields the claim is about. -/
structure WriteResult where
  stored : Bool
  reason : Option String
deriving DecidableEq, Repr

/-- The `memory_write` tool handler from server.ts: exact dedup against the
category file, then the best-effort semantic dedup (whose `searchMemory`
verdict is the oracle `semDup`), then the evidence write and the entry
append. `h` is `hashText`. -/
def memory_write (h : String → String) (semDup : Bool) (st : MemState)
    (content : String) (category : Option String) (sourceTag : Option String)
    (evidence : Option String) (timestamp : String) : MemState × WriteResult :=
  if (match st.catFile with
      | some existing => hasDuplicate existing content
      | none => false) then
    (st, ⟨false, some "duplicate"⟩)
  else if semDup then
    (st, ⟨false, some "semantic_duplicate"⟩)
  else
    let cat := catNormalize category
    let hasEv := match evidence with
      | some ev => decide (0 < (jsTrim ev).length)
      | none => false
    let factId := String.mk ((h content).toList.take 12)
    let refTag := if hasEv then " [ref:memory/evidence/" ++ factId ++ ".md]" else ""
    let entry := "- " ++ content ++ refTag ++
      (match sourceTag with
       | some s => " _(source: " ++ s ++ ")_"
       | none => "") ++ " — " ++ timestamp
    let newCat := match st.catFile with
      | none => "# " ++ capitalizeFirst cat ++ "\n\n" ++ entry ++ "\n"
      | some ex => ex ++ entry ++ "\n"
    let newEv := if hasEv then
        [("memory/evidence/" ++ factId ++ ".md",
          "# Evidence for: " ++ content ++ "\n\n" ++ evidence.getD "" ++ "\n")]
      else []
    (⟨some newCat, st.evidence ++ newEv⟩, ⟨true, none⟩)

/-- C9. Exact dedup: when some entry line of the existing category file has
normalized content equal to the normalized input, `memory_write` returns
`{stored: false, reason: "duplicate"}` and changes nothing: no entry is
appended and no evidence file is created. -/
theorem c9_write_exact_dedup (h : String → String) (semDup : Bool) (st : MemState)
    (content : String) (category sourceTag evidence : Option String)
    (timestamp : String) (existing : String) (hcat : st.catFile = some existing)
    (line : String) (hline : line ∈ jsSplitNl existing)
    (cap : String) (hcap : matchEntryContent line = some cap)
    (hnorm : normalizeForMatch cap = normalizeForMatch content) :
    memory_write h semDup st content category sourceTag evidence timestamp =
      (st, ⟨false, some "duplicate"⟩) := by
  have hdup : hasDuplicate existing content = true := by
    unfold hasDuplicate
    rw [List.any_eq_true]
    refine ⟨line, hline, ?_⟩
    simp only [hcap, hnorm, decide_eq_true_eq]
  have hcond : (match st.catFile with
      | some existing2 => hasDuplicate existing2 content
      | none => false) = true := by
    rw [hcat]
    exact hdup
  unfold memory_write
  rw [if_pos hcond]

/-- Witness for C9: `HI  X` is an exact duplicate of the stored entry
`- hi x — 2024` up to case and whitespace. -/
theorem c9_write_exact_dedup_witness :
    memory_write (fun s => s) false
      ⟨some "# General\n\n- hi x — 2024\n", []⟩ "HI  X" none none none "2025" =
      (⟨some "# General\n\n- hi x — 2024\n", []⟩, ⟨false, some "duplicate"⟩) :=
  c9_write_exact_dedup (fun s => s) false
    ⟨some "# General\n\n- hi x — 2024\n", []⟩ "HI  X" none none none "2025"
    "# General\n\n- hi x — 2024\n" rfl "- hi x — 2024" (by decide)
    "hi x" (by decide) (by decide)

end MemoryMcp
